import Mathlib

/-! Shallow embedding of `src/string/multiple_longest_common_subsequence.rs`
(an A*-like search for one longest common subsequence of several strings),
together with proofs about the embedded program.

Rust strings are modelled as `List Char` (the code immediately converts each
input to `Vec<char>`), `usize` and `u64` as `Nat` (no arithmetic here can
overflow a `u64`: all scores are bounded by string lengths), `Option<usize>`
as `Option Nat`, and each `HashMap` keyed by points as a total function into
`Option _` updated pointwise.  Rust indexing `v[i]` panics when out of
bounds; reads are modelled with `getD`, and claim C10 establishes that the
search driver performs only in-bounds reads.  The `mlcs_loop` fuel argument
makes the `while` loop structurally terminating; a run that would need more
iterations than the supplied fuel returns `none`. -/

/-- A lattice point: one `Option` index per input string (`Vec<Option<usize>>`). -/
abbrev Point := List (Option Nat)

/-- The relaxation-window constant `C = 20` of the search driver. -/
def astar_C : Nat := 20

/-- The search context (`struct Context`).  The score maps `f`, `g` and the
parent map are hash maps in the source; here they are functions from points,
`none` meaning "key absent". -/
structure Context where
  alphabet : List Char
  chains : List (List Char)
  d : Nat
  f : Point → Option Nat
  g : Point → Option Nat
  ms : List (List (List Nat))
  mt : List (List (List (Option Nat)))
  parents : Point → Option (Option Point)

/-- `get_alphabet`: the shortest input string (`min_by_key`, first minimum),
sorted and with consecutive duplicates removed (`Vec::sort` + `Vec::dedup`).
`none` models the `expect` panic on an empty collection. -/
def get_alphabet (chains : List (List Char)) : Option (List Char) :=
  match chains with
  | [] => none
  | c :: rest =>
      let shortest := rest.foldl (fun best s => if s.length < best.length then s else best) c
      some ((List.insertionSort (· ≤ ·) shortest).destutter (· ≠ ·))

/-- Read `matrix[a][b]` of a `Vec<Vec<u64>>` (always in bounds where used). -/
def score_cell (M : List (List Nat)) (a b : Nat) : Nat :=
  (M.getD a []).getD b 0

/-- Write `matrix[a][b] = v` of a `Vec<Vec<u64>>`. -/
def score_set (M : List (List Nat)) (a b v : Nat) : List (List Nat) :=
  M.set a ((M.getD a []).set b v)

/-- Inner loop of `score_matrix` (`for j in (0..(n-1)).rev()`), filling row
`i`: `score_inner s1 s2 i k M` writes cells `(i, k-1), …, (i, 0)` in that
order. -/
def score_inner (s1 s2 : List Char) (i : Nat) : Nat → List (List Nat) → List (List Nat)
  | 0, M => M
  | k + 1, M =>
      score_inner s1 s2 i k
        (score_set M i k
          (if s1.getD (i + 1) '?' = s2.getD (k + 1) '?' then score_cell M (i + 1) (k + 1) + 1
           else max (score_cell M i (k + 1)) (score_cell M (i + 1) k)))

/-- Outer loop of `score_matrix` (`for i in (0..(m-1)).rev()`). -/
def score_outer (s1 s2 : List Char) : Nat → List (List Nat) → List (List Nat)
  | 0, M => M
  | k + 1, M => score_outer s1 s2 k (score_inner s1 s2 k (s2.length - 1) M)

/-- `score_matrix`: the `(m+1)×(n+1)` suffix table, zero-initialised; the
loops run only when both strings are non-empty. -/
def score_matrix (s1 s2 : List Char) : List (List Nat) :=
  let m := s1.length
  let n := s2.length
  let matrix := List.replicate (m + 1) (List.replicate (n + 1) 0)
  if 0 < m ∧ 0 < n then score_outer s1 s2 (m - 1) matrix else matrix

/-- `matrices_score`: the `d²` pairwise suffix tables, outer string first. -/
def matrices_score (chains : List (List Char)) : List (List (List Nat)) :=
  chains.flatMap (fun s1 => chains.map (fun s2 => score_matrix s1 s2))

/-- `to_linear_index`. -/
def to_linear_index (i j d : Nat) : Nat := i * d + j

/-- The backward scan of `mt_table` over one string: `v[i] = lpos`, the most
recently seen index of `ch`.  Returns the column and the final `lpos`. -/
def mt_loop (s : List Char) (ch : Char) :
    Nat → List (Option Nat) → Option Nat → List (Option Nat) × Option Nat
  | 0, v, lpos => (v, lpos)
  | i + 1, v, lpos =>
      let lpos' := if s.getD i '?' = ch then some i else lpos
      mt_loop s ch i (v.set i lpos') lpos'

/-- One `mt_table` column: next-occurrence positions of `ch` in `s`. -/
def mt_col (s : List Char) (ch : Char) : List (Option Nat) × Option Nat :=
  mt_loop s ch s.length (List.replicate s.length none) none

/-- Per-letter body of `mt_table`: one column per string, aborting with
`none` as soon as the letter is missing from some string (`lpos.is_none()`
followed by `break`, which discards the partial chain). -/
def mt_chain (chains : List (List Char)) (ch : Char) : Option (List (List (Option Nat))) :=
  match chains with
  | [] => some []
  | s :: rest =>
      match (mt_col s ch).2 with
      | none => none
      | some _ => (mt_chain rest ch).map (fun c => (mt_col s ch).1 :: c)

/-- `mt_table` loop over `alphabet.clone()`; the second argument is the live
alphabet that `Vec::retain` filters in place. -/
def mt_table_go (chains : List (List Char)) :
    List Char → List Char → List (List (List (Option Nat))) × List Char
  | [], alph => ([], alph)
  | ch :: rest, alph =>
      match mt_chain chains ch with
      | some chain =>
          let r := mt_table_go chains rest alph
          (chain :: r.1, r.2)
      | none => mt_table_go chains rest (alph.filter (fun x => decide (x ≠ ch)))

/-- `mt_table`: the per-letter next-occurrence tables plus the filtered
alphabet (only letters common to all strings survive). -/
def mt_table (chains : List (List Char)) (alphabet : List Char) :
    List (List (List (Option Nat))) × List Char :=
  mt_table_go chains alphabet alphabet

/-- `Context::new`.  `none` models the `expect` panic on an empty collection. -/
def Context.new (strings : List (List Char)) : Option Context :=
  match get_alphabet strings with
  | none => none
  | some alpha0 =>
      let d := strings.length
      let p0 : Point := List.replicate d none
      let r := mt_table strings alpha0
      some { alphabet := r.2
             chains := strings
             d := d
             f := fun q => if q = p0 then some 0 else none
             g := fun q => if q = p0 then some 0 else none
             ms := matrices_score strings
             mt := r.1
             parents := fun q => if q = p0 then some none else none }

/-- Smallest element of a list (`Iterator::min`). -/
def list_min : List Nat → Option Nat
  | [] => none
  | x :: xs =>
      match list_min xs with
      | none => some x
      | some m => some (min x m)

/-- `Context::heuristic`: minimum over ordered pairs `(i, j)` with `i ≠ j` of
`ms[i*d+j][p[i]][p[j]]`; pairs with a sentinel component are skipped and the
empty minimum is `0` (`unwrap_or(0)`). -/
def heuristic (ctx : Context) (p : Point) : Nat :=
  let similarity := (List.range ctx.d).flatMap (fun i =>
    (List.range ctx.d).filterMap (fun j =>
      if i ≠ j then
        match p.getD i none, p.getD j none with
        | some pi, some pj =>
            some (score_cell (ctx.ms.getD (to_linear_index i j ctx.d) []) pi pj)
        | _, _ => none
      else none))
  (list_min similarity).getD 0

/-- `Context::update_suc`: record `g(q) = g(p) + 1`, `f(q) = h(q) + g(q)` and
`parent(q) = p`.  The read `self.g[&p]` panics in Rust when `p` is absent;
every call site below has the key present. -/
def update_suc (ctx : Context) (p q : Point) : Context :=
  let nb := (ctx.g p).getD 0 + 1
  { ctx with
    g := fun x => if x = q then some nb else ctx.g x
    f := fun x => if x = q then some (heuristic ctx q + nb) else ctx.f x
    parents := fun x => if x = q then some (some p) else ctx.parents x }

/-- Inner accumulation of `get_successors` for one letter: `continue` on a
sentinel component, `break` (keeping the partial vector) when the letter has
no further occurrence in string `i`.  The Rust read `mt[ch][i][idx + 1]` is
taken with `getD`, so an out-of-bounds index (a Rust panic) is collapsed
into the `break` path here; `succ_go_px` below keeps the panic apart, and
the driver only reaches this code with every index in bounds (claim C10). -/
def succ_go (mtc : List (List (Option Nat))) :
    List (Option Nat) → Nat → List (Option Nat) → List (Option Nat)
  | [], _, acc => acc
  | po :: rest, i, acc =>
      match po with
      | none => succ_go mtc rest (i + 1) acc
      | some idx =>
          match (mtc.getD i []).getD (idx + 1) none with
          | none => acc
          | some nxt => succ_go mtc rest (i + 1) (acc ++ [some nxt])

/-- `Context::get_successors`: one candidate point per alphabet letter, kept
iff its component vector is complete.  Inherits `succ_go`'s collapsed
out-of-bounds read; `get_successors_px` below is the panic-faithful version,
and the two agree wherever the reads are in bounds
(`get_successors_px_eq`). -/
def get_successors (ctx : Context) (p : Point) : List Point :=
  (List.range ctx.alphabet.length).filterMap (fun ch_idx =>
    let succ := succ_go (ctx.mt.getD ch_idx []) (p.take ctx.chains.length) 0 []
    if succ.length = ctx.chains.length then some succ else none)

/-- Inner accumulation of `get_successors` for one letter with the Rust
indexing `mt[ch][i][idx + 1]` modelled fallibly: the outer `none` is the
out-of-bounds panic (column `i` missing, or `idx + 1` past its end), and
`some acc` is a normal completion, an early `break` included. -/
def succ_go_px (mtc : List (List (Option Nat))) :
    List (Option Nat) → Nat → List (Option Nat) → Option (List (Option Nat))
  | [], _, acc => some acc
  | po :: rest, i, acc =>
      match po with
      | none => succ_go_px mtc rest (i + 1) acc
      | some idx =>
          match mtc[i]? with
          | none => none
          | some col =>
              match col[idx + 1]? with
              | none => none
              | some nxt =>
                  match nxt with
                  | none => some acc
                  | some nxtv => succ_go_px mtc rest (i + 1) (acc ++ [some nxtv])

/-- `Context::get_successors` with every indexing fallible: `none` is a Rust
panic (an out-of-bounds read for some alphabet letter), `some` the returned
successor list. -/
def get_successors_px (ctx : Context) (p : Point) : Option (List Point) :=
  match (List.range ctx.alphabet.length).mapM (fun ch_idx =>
      match ctx.mt[ch_idx]? with
      | none => (none : Option (Option Point))
      | some mtc =>
          match succ_go_px mtc (p.take ctx.chains.length) 0 [] with
          | none => none
          | some succ =>
              some (if succ.length = ctx.chains.length then some succ else none)) with
  | none => none
  | some cands => some (cands.filterMap id)

/-- `Context::get_starting_p`: for each alphabet letter, the per-string first
occurrences `mt[ch][i][0]`. -/
def get_starting_p (ctx : Context) : List Point :=
  (List.range ctx.alphabet.length).map (fun ch_idx =>
    (List.range ctx.chains.length).map (fun i =>
      ((ctx.mt.getD ch_idx []).getD i []).getD 0 none))

/-- Parent walk of `common_seq`, collecting `chains[0][p[0]]` at every point
whose recorded parent exists.  The Rust `while` loop has no fuel; here the
caller passes `g(p) + 1`, which is exactly the number of iterations whenever
`g` records the length of the recorded parent chain.  A missing key (a Rust
panic) stops the walk. -/
def common_seq_walk (ctx : Context) : Nat → Point → List Char
  | 0, _ => []
  | fuel + 1, p =>
      match ctx.parents p with
      | some (some par) =>
          (match p.getD 0 none with
           | some idx => [(ctx.chains.getD 0 []).getD idx '?']
           | none => []) ++ common_seq_walk ctx fuel par
      | _ => []

/-- `Context::common_seq`: the collected characters, reversed. -/
def common_seq (ctx : Context) (p : Point) : List Char :=
  (common_seq_walk ctx ((ctx.g p).getD 0 + 1) p).reverse

/-- The `Option<&u64>` comparison `self.f.get(p) > self.f.get(q)` of
`reorder_queue` (`None` is smaller than `Some _`). -/
def opt_gt : Option Nat → Option Nat → Bool
  | some a, some b => decide (b < a)
  | some _, none => true
  | none, _ => false

/-- The comparator of `reorder_queue`: `Greater` iff `f(p) > f(q)`, or
`f(p) = f(q)` and `h(p) > h(q)`; otherwise `Less`. -/
def point_gt (ctx : Context) (p q : Point) : Bool :=
  opt_gt (ctx.f p) (ctx.f q) ||
    (decide (ctx.f p = ctx.f q) && decide (heuristic ctx q < heuristic ctx p))

/-- `Context::reorder_queue`: sort ascending under the comparator.  Rust's
`sort_unstable_by` leaves the order of tied elements unspecified; the model
fixes it with a stable sort under the derived order `¬ Greater`. -/
def reorder_queue (ctx : Context) (queue : List Point) : List Point :=
  List.insertionSort (fun p q => point_gt ctx p q = false) queue

/-- `Context::init_queue`: attach every starting point to the root point,
then sort. -/
def init_queue (ctx : Context) : Context × List Point :=
  let queue := get_starting_p ctx
  let ctx' := queue.foldl (fun c q => update_suc c (List.replicate c.d none) q) ctx
  (ctx', reorder_queue ctx' queue)

/-- The `for q in succs` loop of the driver: skip successors already in the
new queue, otherwise record bookkeeping and push. -/
def insert_succs (ctx : Context) (p : Point) :
    List Point → List Point → Context × List Point
  | [], acc => (ctx, acc)
  | q :: qs, acc =>
      if q ∈ acc then insert_succs ctx p qs acc
      else insert_succs (update_suc ctx p q) p qs (acc ++ [q])

/-- The `for p in second_queue` loop: return the reconstructed sequence at
the first point with heuristic `0`, otherwise expand its successors into the
new queue being built. -/
def expand_round (ctx : Context) :
    List Point → List Point → Sum (List Char) (Context × List Point)
  | [], acc => Sum.inr (ctx, acc)
  | p :: rest, acc =>
      if heuristic ctx p = 0 then Sum.inl (common_seq ctx p)
      else
        let st := insert_succs ctx p (get_successors ctx p) acc
        expand_round st.1 rest st.2

/-- One iteration of `while !queue.is_empty()`: `Sum.inl` when the function
returns, `Sum.inr` with the next state otherwise.  An empty queue yields the
empty string. -/
def mlcs_step (st : Context × List Point) : Sum (List Char) (Context × List Point) :=
  match st.2.getLast? with
  | none => Sum.inl []
  | some lastp =>
      let y0 := (st.1.f lastp).getD 0
      let y := if astar_C < y0 then y0 - astar_C else y0
      let second_queue := st.2.filter (fun p => decide (y ≤ (st.1.f p).getD 0))
      match expand_round st.1 second_queue [] with
      | Sum.inl s => Sum.inl s
      | Sum.inr st' => Sum.inr (st'.1, reorder_queue st'.1 st'.2)

/-- The search loop, with fuel. -/
def mlcs_loop : Nat → Context × List Point → Option (List Char)
  | 0, _ => none
  | fuel + 1, st =>
      match mlcs_step st with
      | Sum.inl s => some s
      | Sum.inr st' => mlcs_loop fuel st'

/-- `multiple_longest_common_subsequence`, with explicit loop fuel.  `none`
means the fuel ran out or `Context::new` panicked on an empty collection. -/
def multiple_longest_common_subsequence (fuel : Nat) (chains : List (List Char)) :
    Option (List Char) :=
  match Context.new chains with
  | none => none
  | some ctx => mlcs_loop fuel (init_queue ctx)

/-- Length of a longest common subsequence of two lists, by the classical
recurrence.  This is the mathematical yardstick for the `score_matrix`
claims; `lcsLength_spec` below shows it is the maximal length of a common
sublist. -/
def lcsLength : List Char → List Char → Nat
  | [], _ => 0
  | _ :: _, [] => 0
  | x :: xs, y :: ys =>
      if x = y then lcsLength xs ys + 1
      else max (lcsLength (x :: xs) ys) (lcsLength xs (y :: ys))
termination_by l1 l2 => l1.length + l2.length

/-- Smallest index `j ≥ k` with `s[j] = c`, or `none`.  This is the value the
`mt_table` backward scan stores at position `k`. -/
def first_occ_from (s : List Char) (c : Char) (k : Nat) : Option Nat :=
  if k < s.length then
    if s.getD k '?' = c then some k else first_occ_from s c (k + 1)
  else none
termination_by s.length - k

/-- Modelled from the claim: the smallest position of `c` in `l` strictly
greater than `k` (C4's description of a successor component). -/
def next_strictly_after (l : List Char) (c : Char) (k : Nat) : Option Nat :=
  (List.range l.length).find? (fun j => decide (k < j) && decide (l.getD j '?' = c))

/-- Modelled from the claim (C4): for each alphabet symbol, the point whose
`i`-th component is the next occurrence of the symbol strictly after `p[i]`;
symbols lacking an occurrence in some string contribute nothing. -/
def get_successors_spec (ctx : Context) (p : Point) : List Point :=
  ctx.alphabet.filterMap (fun c =>
    (ctx.chains.zip p).mapM (fun sp =>
      match sp.2 with
      | none => none
      | some k => (next_strictly_after sp.1 c k).map some))

/-- A point all of whose components are real in-bounds indices. -/
def ValidPt (chains : List (List Char)) (p : Point) : Prop :=
  p.length = chains.length ∧
    ∀ i < chains.length, ∃ k, p.getD i none = some k ∧ k < (chains.getD i []).length

/-- A placeholder context (used only to unpack `Context.new` on concrete
inputs in closed statements). -/
def emptyContext : Context :=
  { alphabet := [], chains := [], d := 0, f := fun _ => none, g := fun _ => none,
    ms := [], mt := [], parents := fun _ => none }

/-- The recorded parent of `key` after one driver round from `st` (used to
observe the evolution of the parent map in closed statements). -/
def step_parents (st : Context × List Point) (key : Point) : Option (Option Point) :=
  match mlcs_step st with
  | Sum.inl _ => none
  | Sum.inr st' => st'.1.parents key

/-- The root point: all components sentinel. -/
def rootPt (d : Nat) : Point := List.replicate d none

/-- Invariant on the recorded parent map: any key with a real parent is a
fully valid point whose components all carry one common character, and its
parent is the root or a componentwise strictly smaller valid point.  This is
what path reconstruction needs. -/
def ParentInv (ctx : Context) : Prop :=
  ∀ q par, ctx.parents q = some (some par) →
    (ValidPt ctx.chains q ∧
      (∃ c, ∀ i < ctx.chains.length, ∀ k, q.getD i none = some k →
        (ctx.chains.getD i []).getD k '?' = c) ∧
      (par = rootPt ctx.chains.length ∨
        (ValidPt ctx.chains par ∧
          ∀ i < ctx.chains.length, ∀ kp kq,
            par.getD i none = some kp → q.getD i none = some kq → kp < kq)))

/-- Structural facts about a context produced by `Context.new` that every
driver step preserves (the preprocessing fields are never mutated). -/
def StructOk (chains : List (List Char)) (ctx : Context) : Prop :=
  ctx.chains = chains ∧ ctx.d = chains.length ∧ 0 < chains.length ∧
    ctx.ms = matrices_score chains ∧
    ctx.mt = ctx.alphabet.map (fun ch => chains.map (fun s => (mt_col s ch).1)) ∧
    (∀ c ∈ ctx.alphabet, ∀ s ∈ chains, c ∈ s)

/-- Root-entry facts of the bookkeeping maps (claim C7). -/
def RootOk (ctx : Context) : Prop :=
  ctx.parents (rootPt ctx.chains.length) = some none ∧
    ctx.g (rootPt ctx.chains.length) = some 0 ∧
    ctx.f (rootPt ctx.chains.length) = some 0

/-- The full driver-state invariant: structure facts, root facts, parent-map
invariant, and validity of every queued point. -/
def StInv (chains : List (List Char)) (st : Context × List Point) : Prop :=
  StructOk chains st.1 ∧ RootOk st.1 ∧ ParentInv st.1 ∧
    ∀ p ∈ st.2, ValidPt chains p

/-- Reachable driver states: the state after `init_queue`, closed under
non-returning driver rounds. -/
inductive ReachState (chains : List (List Char)) : Context × List Point → Prop where
  | init : ∀ ctx, Context.new chains = some ctx → ReachState chains (init_queue ctx)
  | step : ∀ st st', ReachState chains st → mlcs_step st = Sum.inr st' →
      ReachState chains st'

/-- Rank embedding of the `Option<&u64>` ordering: `none` below every
`some`. -/
def optRank : Option Nat → Nat
  | none => 0
  | some v => v + 1

/-- The `similarity` vector built inside `heuristic` (named for the proofs). -/
def sim_list (ctx : Context) (p : Point) : List Nat :=
  (List.range ctx.d).flatMap (fun i =>
    (List.range ctx.d).filterMap (fun j =>
      if i ≠ j then
        match p.getD i none, p.getD j none with
        | some pi, some pj =>
            some (score_cell (ctx.ms.getD (to_linear_index i j ctx.d) []) pi pj)
        | _, _ => none
      else none))

lemma lcsLength_nil_left (l : List Char) : lcsLength [] l = 0 := by
  simp [lcsLength]

lemma lcsLength_nil_right (l : List Char) : lcsLength l [] = 0 := by
  cases l <;> simp [lcsLength]

lemma lcsLength_cons_cons (x y : Char) (xs ys : List Char) :
    lcsLength (x :: xs) (y :: ys) =
      if x = y then lcsLength xs ys + 1
      else max (lcsLength (x :: xs) ys) (lcsLength xs (y :: ys)) := by
  simp [lcsLength]

lemma length_le_lcsLength (N : Nat) :
    ∀ l1 l2 cs : List Char, l1.length + l2.length ≤ N →
      cs.Sublist l1 → cs.Sublist l2 → cs.length ≤ lcsLength l1 l2 := by
  induction N with
  | zero =>
      intro l1 l2 cs hN h1 _
      have hl1 : l1 = [] := by
        cases l1 with
        | nil => rfl
        | cons a as => simp at hN
      subst hl1
      have : cs = [] := List.sublist_nil.mp h1
      simp [this]
  | succ N ih =>
      intro l1 l2 cs hN h1 h2
      cases l1 with
      | nil =>
          have : cs = [] := List.sublist_nil.mp h1
          simp [this]
      | cons x xs =>
          cases l2 with
          | nil =>
              have : cs = [] := List.sublist_nil.mp h2
              simp [this]
          | cons y ys =>
              rw [lcsLength_cons_cons]
              by_cases hxy : x = y
              · subst hxy
                rw [if_pos rfl]
                cases cs with
                | nil => simp
                | cons c cs' =>
                    have hcs1 : cs'.Sublist xs := by
                      cases h1 with
                      | cons _ h => exact List.sublist_of_cons_sublist h
                      | cons₂ _ h => exact h
                    have hcs2 : cs'.Sublist ys := by
                      cases h2 with
                      | cons _ h => exact List.sublist_of_cons_sublist h
                      | cons₂ _ h => exact h
                    have : cs'.length ≤ lcsLength xs ys := by
                      apply ih xs ys cs' _ hcs1 hcs2
                      simp only [List.length_cons] at hN
                      omega
                    simpa using Nat.add_le_add_right this 1
              · rw [if_neg hxy]
                cases cs with
                | nil => simp
                | cons c cs' =>
                    by_cases hcx : c = x
                    · subst hcx
                      have hs : (c :: cs').Sublist ys := by
                        cases h2 with
                        | cons _ h => exact h
                        | cons₂ _ h => exact absurd rfl hxy
                      have : (c :: cs').length ≤ lcsLength (c :: xs) ys := by
                        apply ih (c :: xs) ys (c :: cs') _ h1 hs
                        simp only [List.length_cons] at hN ⊢
                        omega
                      exact this.trans (le_max_left _ _)
                    · have hs : (c :: cs').Sublist xs := by
                        cases h1 with
                        | cons _ h => exact h
                        | cons₂ _ h => exact absurd rfl hcx
                      have : (c :: cs').length ≤ lcsLength xs (y :: ys) := by
                        apply ih xs (y :: ys) (c :: cs') _ hs h2
                        simp only [List.length_cons] at hN ⊢
                        omega
                      exact this.trans (le_max_right _ _)

lemma exists_lcs (N : Nat) :
    ∀ l1 l2 : List Char, l1.length + l2.length ≤ N →
      ∃ cs : List Char, cs.Sublist l1 ∧ cs.Sublist l2 ∧ cs.length = lcsLength l1 l2 := by
  induction N with
  | zero =>
      intro l1 l2 hN
      have hl1 : l1 = [] := by
        cases l1 with
        | nil => rfl
        | cons a as => simp at hN
      subst hl1
      exact ⟨[], List.nil_sublist _, List.nil_sublist _, by simp [lcsLength_nil_left]⟩
  | succ N ih =>
      intro l1 l2 hN
      cases l1 with
      | nil =>
          exact ⟨[], List.nil_sublist _, List.nil_sublist _, by simp [lcsLength_nil_left]⟩
      | cons x xs =>
          cases l2 with
          | nil =>
              exact ⟨[], List.nil_sublist _, List.nil_sublist _, by
                simp [lcsLength_nil_right]⟩
          | cons y ys =>
              by_cases hxy : x = y
              · subst hxy
                obtain ⟨cs, hc1, hc2, hlen⟩ := ih xs ys (by
                  simp only [List.length_cons] at hN; omega)
                refine ⟨x :: cs, hc1.cons₂ x, hc2.cons₂ x, ?_⟩
                rw [lcsLength_cons_cons, if_pos rfl]
                simp [hlen]
              · obtain ⟨csA, hA1, hA2, hlenA⟩ := ih (x :: xs) ys (by
                  simp only [List.length_cons] at hN ⊢; omega)
                obtain ⟨csB, hB1, hB2, hlenB⟩ := ih xs (y :: ys) (by
                  simp only [List.length_cons] at hN ⊢; omega)
                rcases le_total (lcsLength xs (y :: ys)) (lcsLength (x :: xs) ys) with hm | hm
                · refine ⟨csA, hA1, hA2.trans (List.sublist_cons_self y ys), ?_⟩
                  rw [lcsLength_cons_cons, if_neg hxy, max_eq_left hm]
                  exact hlenA
                · refine ⟨csB, hB1.trans (List.sublist_cons_self x xs), hB2, ?_⟩
                  rw [lcsLength_cons_cons, if_neg hxy, max_eq_right hm]
                  exact hlenB

lemma lcs_le {l1 l2 cs : List Char} (h1 : cs.Sublist l1) (h2 : cs.Sublist l2) :
    cs.length ≤ lcsLength l1 l2 :=
  length_le_lcsLength (l1.length + l2.length) l1 l2 cs le_rfl h1 h2

lemma lcs_exists (l1 l2 : List Char) :
    ∃ cs : List Char, cs.Sublist l1 ∧ cs.Sublist l2 ∧ cs.length = lcsLength l1 l2 :=
  exists_lcs (l1.length + l2.length) l1 l2 le_rfl

lemma getD_of_lt {α : Type _} {M : List α} {a : Nat} (ha : a < M.length) {dflt : α} :
    M.getD a dflt = M[a] := by
  rw [List.getD_eq_getElem?_getD, List.getElem?_eq_getElem ha]
  rfl

lemma score_cell_set_self {M : List (List Nat)} {a b v : Nat}
    (ha : a < M.length) (hb : b < (M.getD a []).length) :
    score_cell (score_set M a b v) a b = v := by
  unfold score_cell score_set
  have h1 : (M.set a ((M.getD a []).set b v)).getD a [] = (M.getD a []).set b v := by
    rw [List.getD_eq_getElem?_getD, List.getElem?_set_self ha]
    rfl
  rw [h1, List.getD_eq_getElem?_getD, List.getElem?_set_self hb]
  rfl

lemma score_cell_set_ne {M : List (List Nat)} {a b v a' b' : Nat}
    (h : a' ≠ a ∨ b' ≠ b) :
    score_cell (score_set M a b v) a' b' = score_cell M a' b' := by
  unfold score_cell score_set
  rcases h with h | h
  · rw [List.getD_eq_getElem?_getD (M.set _ _), List.getElem?_set_ne (fun hc => h hc.symm),
      ← List.getD_eq_getElem?_getD]
  · by_cases ha : a' < M.length
    · by_cases haa : a' = a
      · subst haa
        have h1 : (M.set a' ((M.getD a' []).set b v)).getD a' [] = (M.getD a' []).set b v := by
          rw [List.getD_eq_getElem?_getD, List.getElem?_set_self ha]
          rfl
        rw [h1, List.getD_eq_getElem?_getD ((M.getD a' []).set b v),
          List.getElem?_set_ne (fun hc => h hc.symm), ← List.getD_eq_getElem?_getD]
      · rw [List.getD_eq_getElem?_getD (M.set _ _), List.getElem?_set_ne (fun hc => haa hc.symm),
          ← List.getD_eq_getElem?_getD]
    · have h1 : (M.set a ((M.getD a []).set b v)).getD a' [] = [] := by
        rw [List.getD_eq_getElem?_getD, List.getElem?_eq_none (by simpa using Nat.le_of_not_lt ha)]
        rfl
      have h2 : M.getD a' [] = [] := by
        rw [List.getD_eq_getElem?_getD, List.getElem?_eq_none (Nat.le_of_not_lt ha)]
        rfl
      rw [h1, h2]

lemma score_set_length (M : List (List Nat)) (a b v : Nat) :
    (score_set M a b v).length = M.length := by
  unfold score_set
  exact List.length_set M a _

lemma score_set_width {M : List (List Nat)} {w : Nat} (ha : a < M.length)
    (hw : ∀ row ∈ M, row.length = w) :
    ∀ row ∈ score_set M a b v, row.length = w := by
  intro row hrow
  rcases List.mem_or_eq_of_mem_set hrow with h | h
  · exact hw row h
  · subst h
    rw [List.length_set, getD_of_lt ha]
    exact hw _ (List.getElem_mem ha)

lemma score_cell_replicate (mm nn a b : Nat) :
    score_cell (List.replicate mm (List.replicate nn 0)) a b = 0 := by
  unfold score_cell
  by_cases ha : a < mm
  · have h1 : (List.replicate mm (List.replicate nn 0)).getD a [] = List.replicate nn 0 := by
      rw [List.getD_eq_getElem?_getD, List.getElem?_replicate, if_pos ha]
      rfl
    rw [h1]
    by_cases hb : b < nn
    · rw [List.getD_eq_getElem?_getD, List.getElem?_replicate, if_pos hb]
      rfl
    · rw [List.getD_eq_getElem?_getD, List.getElem?_replicate, if_neg hb]
      rfl
  · have h1 : (List.replicate mm (List.replicate nn 0)).getD a [] = [] := by
      rw [List.getD_eq_getElem?_getD, List.getElem?_eq_none
        (by simpa using Nat.le_of_not_lt ha)]
      rfl
    rw [h1]
    rfl

lemma suffix_lcs_zero_row {s1 : List Char} (s2 : List Char) {a : Nat} (b : Nat)
    (ha : s1.length ≤ a + 1) :
    lcsLength (s1.drop (a + 1)) (s2.drop (b + 1)) = 0 := by
  rw [List.drop_eq_nil_of_le ha, lcsLength_nil_left]

lemma suffix_lcs_zero_col (s1 : List Char) {s2 : List Char} (a : Nat) {b : Nat}
    (hb : s2.length ≤ b + 1) :
    lcsLength (s1.drop (a + 1)) (s2.drop (b + 1)) = 0 := by
  rw [List.drop_eq_nil_of_le hb, lcsLength_nil_right]

lemma suffix_lcs_rec {s1 s2 : List Char} {a b : Nat}
    (ha : a + 1 < s1.length) (hb : b + 1 < s2.length) :
    lcsLength (s1.drop (a + 1)) (s2.drop (b + 1)) =
      if s1.getD (a + 1) '?' = s2.getD (b + 1) '?' then
        lcsLength (s1.drop (a + 2)) (s2.drop (b + 2)) + 1
      else
        max (lcsLength (s1.drop (a + 1)) (s2.drop (b + 2)))
          (lcsLength (s1.drop (a + 2)) (s2.drop (b + 1))) := by
  have e1 : s1.drop (a + 1) = s1[a + 1] :: s1.drop (a + 2) := List.drop_eq_getElem_cons ha
  have e2 : s2.drop (b + 1) = s2[b + 1] :: s2.drop (b + 2) := List.drop_eq_getElem_cons hb
  have g1 : s1.getD (a + 1) '?' = s1[a + 1] := by
    rw [List.getD_eq_getElem?_getD, List.getElem?_eq_getElem ha]
    rfl
  have g2 : s2.getD (b + 1) '?' = s2[b + 1] := by
    rw [List.getD_eq_getElem?_getD, List.getElem?_eq_getElem hb]
    rfl
  conv_lhs => rw [e1, e2]
  rw [lcsLength_cons_cons, g1, g2, ← e1, ← e2]

lemma score_inner_spec (s1 s2 : List Char) (i : Nat) (hi : i + 1 < s1.length) :
    ∀ (k : Nat) (M : List (List Nat)),
      k + 1 ≤ s2.length →
      M.length = s1.length + 1 →
      (∀ row ∈ M, row.length = s2.length + 1) →
      (∀ b, score_cell M (i + 1) b = lcsLength (s1.drop (i + 2)) (s2.drop (b + 1))) →
      (∀ b, k ≤ b → score_cell M i b = lcsLength (s1.drop (i + 1)) (s2.drop (b + 1))) →
      (∀ b, score_cell (score_inner s1 s2 i k M) i b
          = lcsLength (s1.drop (i + 1)) (s2.drop (b + 1)))
      ∧ (∀ a b, a ≠ i → score_cell (score_inner s1 s2 i k M) a b = score_cell M a b)
      ∧ (score_inner s1 s2 i k M).length = s1.length + 1
      ∧ (∀ row ∈ score_inner s1 s2 i k M, row.length = s2.length + 1) := by
  intro k
  induction k with
  | zero =>
      intro M _ hlen hw hrow1 hrow0
      refine ⟨fun b => hrow0 b (Nat.zero_le b), fun a b _ => rfl, hlen, hw⟩
  | succ k ih =>
      intro M hk hlen hw hrow1 hrow0
      have hiM : i < M.length := by omega
      have hrowlen : (M.getD i []).length = s2.length + 1 := by
        rw [getD_of_lt hiM]
        exact hw _ (List.getElem_mem hiM)
      set v := (if s1.getD (i + 1) '?' = s2.getD (k + 1) '?'
          then score_cell M (i + 1) (k + 1) + 1
          else max (score_cell M i (k + 1)) (score_cell M (i + 1) k)) with hv
      have hstep : score_inner s1 s2 i (k + 1) M = score_inner s1 s2 i k (score_set M i k v) := by
        rw [score_inner]
      have hlen' : (score_set M i k v).length = s1.length + 1 := by
        rw [score_set_length, hlen]
      have hw' : ∀ row ∈ score_set M i k v, row.length = s2.length + 1 :=
        score_set_width hiM hw
      have hrow1' : ∀ b, score_cell (score_set M i k v) (i + 1) b
          = lcsLength (s1.drop (i + 2)) (s2.drop (b + 1)) := by
        intro b
        rw [score_cell_set_ne (Or.inl (by omega))]
        exact hrow1 b
      have hcellk : score_cell (score_set M i k v) i k = v :=
        score_cell_set_self hiM (by omega)
      have hvspec : v = lcsLength (s1.drop (i + 1)) (s2.drop (k + 1)) := by
        rw [hv, suffix_lcs_rec hi (by omega)]
        rw [hrow1 (k + 1), hrow0 (k + 1) le_rfl, hrow1 k]
      have hrow0' : ∀ b, k ≤ b → score_cell (score_set M i k v) i b
          = lcsLength (s1.drop (i + 1)) (s2.drop (b + 1)) := by
        intro b hb
        rcases Nat.eq_or_lt_of_le hb with hbk | hbk
        · subst hbk
          rw [hcellk, hvspec]
        · rw [score_cell_set_ne (Or.inr (by omega))]
          exact hrow0 b hbk
      obtain ⟨g1, g2, g3, g4⟩ := ih (score_set M i k v) (by omega) hlen' hw' hrow1' hrow0'
      refine ⟨by rw [hstep]; exact g1, ?_, by rw [hstep]; exact g3, by rw [hstep]; exact g4⟩
      intro a b ha
      rw [hstep, g2 a b ha, score_cell_set_ne (Or.inl ha)]

lemma score_outer_spec (s1 s2 : List Char) (hn : 0 < s2.length) :
    ∀ (k : Nat) (M : List (List Nat)),
      k + 1 ≤ s1.length →
      M.length = s1.length + 1 →
      (∀ row ∈ M, row.length = s2.length + 1) →
      (∀ a b, k ≤ a → score_cell M a b = lcsLength (s1.drop (a + 1)) (s2.drop (b + 1))) →
      (∀ a b, a < k → score_cell M a b = 0) →
      ∀ a b, score_cell (score_outer s1 s2 k M) a b
        = lcsLength (s1.drop (a + 1)) (s2.drop (b + 1)) := by
  intro k
  induction k with
  | zero =>
      intro M _ _ _ hup _ a b
      exact hup a b (Nat.zero_le a)
  | succ k ih =>
      intro M hk hlen hw hup hdown
      have hstep : score_outer s1 s2 (k + 1) M
          = score_outer s1 s2 k (score_inner s1 s2 k (s2.length - 1) M) := by
        rw [score_outer]
      have hrow1 : ∀ b, score_cell M (k + 1) b = lcsLength (s1.drop (k + 2)) (s2.drop (b + 1)) := by
        intro b
        exact hup (k + 1) b le_rfl
      have hrow0 : ∀ b, s2.length - 1 ≤ b →
          score_cell M k b = lcsLength (s1.drop (k + 1)) (s2.drop (b + 1)) := by
        intro b hb
        rw [hdown k b (Nat.lt_succ_self k), suffix_lcs_zero_col _ _ (by omega)]
      obtain ⟨g1, g2, g3, g4⟩ := score_inner_spec s1 s2 k (by omega) (s2.length - 1) M
        (by omega) hlen hw hrow1 hrow0
      rw [hstep]
      apply ih _ (by omega) g3 g4
      · intro a b ha
        rcases Nat.eq_or_lt_of_le ha with hak | hak
        · subst hak
          exact g1 b
        · rw [g2 a b (by omega)]
          exact hup a b (by omega)
      · intro a b ha
        rw [g2 a b (by omega)]
        exact hdown a b (by omega)

lemma score_matrix_cell (s1 s2 : List Char) (a b : Nat) :
    score_cell (score_matrix s1 s2) a b = lcsLength (s1.drop (a + 1)) (s2.drop (b + 1)) := by
  unfold score_matrix
  by_cases h : 0 < s1.length ∧ 0 < s2.length
  · simp only [if_pos h]
    apply score_outer_spec s1 s2 h.2 (s1.length - 1) _ (by omega)
    · simp
    · intro row hrow
      rw [List.eq_of_mem_replicate hrow]
      simp
    · intro a' b' ha'
      rw [score_cell_replicate, suffix_lcs_zero_row _ _ (by omega)]
    · intro a' b' _
      exact score_cell_replicate _ _ _ _
  · simp only [if_neg h]
    rw [score_cell_replicate]
    rcases Nat.eq_zero_or_pos s1.length with h1 | h1
    · rw [suffix_lcs_zero_row _ _ (by omega)]
    · rcases Nat.eq_zero_or_pos s2.length with h2 | h2
      · rw [suffix_lcs_zero_col _ _ (by omega)]
      · exact absurd ⟨h1, h2⟩ h

lemma flatMap_block_getElem? {α β : Type _} (g : α → List β) (blen : Nat)
    (hb : ∀ x, (g x).length = blen) :
    ∀ (outer : List α) (i j : Nat) (hi : i < outer.length), j < blen →
      (outer.flatMap g)[i * blen + j]? = (g outer[i])[j]? := by
  intro outer
  induction outer with
  | nil => intro i j hi _; exact absurd hi (Nat.not_lt_zero i)
  | cons x rest ih =>
      intro i j hi hj
      rw [List.flatMap_cons]
      cases i with
      | zero =>
          simp only [Nat.zero_mul, Nat.zero_add]
          rw [List.getElem?_append_left (by rw [hb x]; exact hj)]
          rfl
      | succ i =>
          have hmul : (i + 1) * blen = i * blen + blen := Nat.succ_mul i blen
          have hlen : (g x).length ≤ (i + 1) * blen + j := by
            rw [hb x]
            omega
          rw [List.getElem?_append_right hlen, hb x]
          have harith : (i + 1) * blen + j - blen = i * blen + j := by omega
          rw [harith, ih i j (by simpa using hi) hj]
          rw [List.getElem_cons_succ]

lemma matrices_score_getD (chains : List (List Char)) (i j : Nat)
    (hi : i < chains.length) (hj : j < chains.length) :
    (matrices_score chains).getD (to_linear_index i j chains.length) []
      = score_matrix (chains.getD i []) (chains.getD j []) := by
  unfold matrices_score to_linear_index
  have hb : ∀ s1 : List Char, (chains.map (fun s2 => score_matrix s1 s2)).length
      = chains.length := fun s1 => List.length_map chains _
  have hidx := flatMap_block_getElem? (fun s1 => chains.map (fun s2 => score_matrix s1 s2))
    chains.length hb chains i j hi hj
  rw [List.getD_eq_getElem?_getD, hidx, getD_of_lt hi, getD_of_lt hj]
  rw [List.getElem?_eq_getElem (by rw [List.length_map]; exact hj), List.getElem_map]
  rfl

lemma list_min_mem : ∀ {l : List Nat} {m : Nat}, list_min l = some m → m ∈ l := by
  intro l
  induction l with
  | nil => intro m h; exact absurd h (by simp [list_min])
  | cons x xs ih =>
      intro m h
      unfold list_min at h
      cases hx : list_min xs with
      | none =>
          rw [hx] at h
          simp at h
          simp [h]
      | some m' =>
          rw [hx] at h
          simp at h
          rcases Nat.le_total x m' with hle | hle
          · rw [Nat.min_eq_left hle] at h
            simp [h]
          · rw [Nat.min_eq_right hle] at h
            right
            exact h ▸ ih hx

lemma list_min_le : ∀ {l : List Nat} {m : Nat}, list_min l = some m → ∀ x ∈ l, m ≤ x := by
  intro l
  induction l with
  | nil => intro m _ x hx; exact absurd hx (List.not_mem_nil x)
  | cons a xs ih =>
      intro m h x hx
      unfold list_min at h
      cases ha : list_min xs with
      | none =>
          rw [ha] at h
          simp at h
          rcases List.mem_cons.mp hx with hx | hx
          · omega
          · cases xs with
            | nil => exact absurd hx (List.not_mem_nil x)
            | cons b bs => exact absurd ha (by unfold list_min; cases list_min bs <;> simp)
      | some m' =>
          rw [ha] at h
          simp at h
          rcases List.mem_cons.mp hx with hx | hx
          · subst hx
            omega
          · have := ih ha x hx
            omega

lemma list_min_isSome : ∀ {l : List Nat}, l ≠ [] → ∃ m, list_min l = some m := by
  intro l hl
  cases l with
  | nil => exact absurd rfl hl
  | cons x xs =>
      unfold list_min
      cases list_min xs <;> simp

lemma heuristic_eq_sim (ctx : Context) (p : Point) :
    heuristic ctx p = (list_min (sim_list ctx p)).getD 0 := rfl

lemma sim_list_mem {ctx : Context} {p : Point} {i j a b : Nat}
    (hi : i < ctx.d) (hj : j < ctx.d) (hij : i ≠ j)
    (ha : p.getD i none = some a) (hb : p.getD j none = some b) :
    score_cell (ctx.ms.getD (to_linear_index i j ctx.d) []) a b ∈ sim_list ctx p := by
  unfold sim_list
  rw [List.mem_flatMap]
  refine ⟨i, List.mem_range.mpr hi, ?_⟩
  rw [List.mem_filterMap]
  refine ⟨j, List.mem_range.mpr hj, ?_⟩
  rw [if_pos hij, ha, hb]

lemma sim_list_mem_inv {ctx : Context} {p : Point} {x : Nat}
    (hx : x ∈ sim_list ctx p) :
    ∃ i j a b, i < ctx.d ∧ j < ctx.d ∧ i ≠ j ∧
      p.getD i none = some a ∧ p.getD j none = some b ∧
      x = score_cell (ctx.ms.getD (to_linear_index i j ctx.d) []) a b := by
  unfold sim_list at hx
  rw [List.mem_flatMap] at hx
  obtain ⟨i, hi, hx⟩ := hx
  rw [List.mem_filterMap] at hx
  obtain ⟨j, hj, hx⟩ := hx
  by_cases hij : i ≠ j
  · rw [if_pos hij] at hx
    cases hpa : p.getD i none with
    | none => rw [hpa] at hx; exact absurd hx (by simp)
    | some a =>
        cases hpb : p.getD j none with
        | none => rw [hpa, hpb] at hx; exact absurd hx (by simp)
        | some b =>
            rw [hpa, hpb] at hx
            simp only [Option.some_inj] at hx
            exact ⟨i, j, a, b, List.mem_range.mp hi, List.mem_range.mp hj, hij, hpa, hpb,
              hx.symm⟩
  · rw [if_neg hij] at hx
    exact absurd hx (by simp)

lemma sim_list_nil_of_d_le_one {ctx : Context} {p : Point} (hd : ctx.d ≤ 1) :
    sim_list ctx p = [] := by
  cases hs : sim_list ctx p with
  | nil => rfl
  | cons x xs =>
      have hx : x ∈ sim_list ctx p := by rw [hs]; exact List.mem_cons_self x xs
      obtain ⟨i, j, a, b, hi, hj, hij, _, _, _⟩ := sim_list_mem_inv hx
      omega

lemma le_heuristic_of_all {ctx : Context} {p : Point} {c : Nat}
    (hne : sim_list ctx p ≠ [])
    (hall : ∀ x ∈ sim_list ctx p, c ≤ x) :
    c ≤ heuristic ctx p := by
  rw [heuristic_eq_sim]
  obtain ⟨m, hm⟩ := list_min_isSome hne
  rw [hm]
  exact hall m (list_min_mem hm)

lemma heuristic_le_of_mem {ctx : Context} {p : Point} {x : Nat}
    (hx : x ∈ sim_list ctx p) :
    heuristic ctx p ≤ x := by
  rw [heuristic_eq_sim]
  have hne : sim_list ctx p ≠ [] := by
    intro hnil
    rw [hnil] at hx
    exact absurd hx (List.not_mem_nil x)
  obtain ⟨m, hm⟩ := list_min_isSome hne
  rw [hm]
  exact list_min_le hm x hx

lemma first_occ_from_of_ge {s : List Char} {c : Char} {k : Nat} (h : s.length ≤ k) :
    first_occ_from s c k = none := by
  rw [first_occ_from, if_neg (by omega)]

lemma first_occ_from_rec {s : List Char} {c : Char} {k : Nat} (h : k < s.length) :
    first_occ_from s c k
      = if s.getD k '?' = c then some k else first_occ_from s c (k + 1) := by
  conv_lhs => rw [first_occ_from]
  rw [if_pos h]

lemma first_occ_from_some_aux (s : List Char) (c : Char) :
    ∀ (fuel k j : Nat), s.length - k ≤ fuel → first_occ_from s c k = some j →
      k ≤ j ∧ j < s.length ∧ s.getD j '?' = c ∧
        ∀ i, k ≤ i → i < j → s.getD i '?' ≠ c := by
  intro fuel
  induction fuel with
  | zero =>
      intro k j hf h
      rw [first_occ_from_of_ge (by omega)] at h
      exact absurd h (by simp)
  | succ fuel ih =>
      intro k j hf h
      by_cases hk : k < s.length
      · rw [first_occ_from_rec hk] at h
        by_cases hc : s.getD k '?' = c
        · rw [if_pos hc] at h
          have hkj : k = j := by simpa using h
          subst hkj
          exact ⟨le_rfl, hk, hc, fun i h1 h2 => by omega⟩
        · rw [if_neg hc] at h
          obtain ⟨h1, h2, h3, h4⟩ := ih (k + 1) j (by omega) h
          refine ⟨by omega, h2, h3, ?_⟩
          intro i hi1 hi2
          rcases Nat.eq_or_lt_of_le hi1 with hik | hik
          · subst hik; exact hc
          · exact h4 i hik hi2
      · rw [first_occ_from_of_ge (by omega)] at h
        exact absurd h (by simp)

lemma first_occ_from_some {s : List Char} {c : Char} {k j : Nat}
    (h : first_occ_from s c k = some j) :
    k ≤ j ∧ j < s.length ∧ s.getD j '?' = c ∧
      ∀ i, k ≤ i → i < j → s.getD i '?' ≠ c :=
  first_occ_from_some_aux s c (s.length - k) k j le_rfl h

lemma first_occ_from_none_aux (s : List Char) (c : Char) :
    ∀ (fuel k : Nat), s.length - k ≤ fuel → first_occ_from s c k = none →
      ∀ j, k ≤ j → j < s.length → s.getD j '?' ≠ c := by
  intro fuel
  induction fuel with
  | zero =>
      intro k hf h j h1 h2
      omega
  | succ fuel ih =>
      intro k hf h j h1 h2
      have hk : k < s.length := by omega
      rw [first_occ_from_rec hk] at h
      by_cases hc : s.getD k '?' = c
      · rw [if_pos hc] at h
        exact absurd h (by simp)
      · rw [if_neg hc] at h
        rcases Nat.eq_or_lt_of_le h1 with hkj | hkj
        · subst hkj; exact hc
        · exact ih (k + 1) (by omega) h j hkj h2

lemma first_occ_from_none {s : List Char} {c : Char} {k : Nat}
    (h : first_occ_from s c k = none) :
    ∀ j, k ≤ j → j < s.length → s.getD j '?' ≠ c :=
  first_occ_from_none_aux s c (s.length - k) k le_rfl h

lemma first_occ_from_isSome_aux (s : List Char) (c : Char) :
    ∀ (fuel k j : Nat), s.length - k ≤ fuel → k ≤ j → j < s.length →
      s.getD j '?' = c → ∃ j', first_occ_from s c k = some j' := by
  intro fuel
  induction fuel with
  | zero => intro k j hf h1 h2 _; omega
  | succ fuel ih =>
      intro k j hf h1 h2 hc
      have hk : k < s.length := by omega
      rw [first_occ_from_rec hk]
      by_cases hck : s.getD k '?' = c
      · exact ⟨k, by rw [if_pos hck]⟩
      · rw [if_neg hck]
        have hkj : k < j := by
          rcases Nat.eq_or_lt_of_le h1 with h | h
          · subst h; exact absurd hc hck
          · exact h
        exact ih (k + 1) j (by omega) hkj h2 hc

lemma first_occ_from_isSome {s : List Char} {c : Char} {k j : Nat}
    (h1 : k ≤ j) (h2 : j < s.length) (hc : s.getD j '?' = c) :
    ∃ j', first_occ_from s c k = some j' :=
  first_occ_from_isSome_aux s c (s.length - k) k j le_rfl h1 h2 hc

lemma mem_iff_first_occ {s : List Char} {c : Char} :
    c ∈ s ↔ ∃ j, first_occ_from s c 0 = some j := by
  constructor
  · intro h
    obtain ⟨j, hj, he⟩ := List.mem_iff_getElem.mp h
    exact first_occ_from_isSome (Nat.zero_le j) hj (by rw [getD_of_lt hj, he])
  · rintro ⟨j, hj⟩
    obtain ⟨_, h2, h3, _⟩ := first_occ_from_some hj
    rw [getD_of_lt h2] at h3
    exact h3 ▸ List.getElem_mem h2

lemma mt_loop_spec (s : List Char) (c : Char) :
    ∀ (i : Nat) (v : List (Option Nat)) (lpos : Option Nat),
      i ≤ s.length →
      v.length = s.length →
      (∀ t, i ≤ t → t < s.length → v[t]? = some (first_occ_from s c t)) →
      lpos = first_occ_from s c i →
      (mt_loop s c i v lpos).1.length = s.length ∧
        (∀ t, t < s.length → (mt_loop s c i v lpos).1[t]? = some (first_occ_from s c t)) ∧
        (mt_loop s c i v lpos).2 = first_occ_from s c 0 := by
  intro i
  induction i with
  | zero =>
      intro v lpos _ hlen hv hl
      exact ⟨hlen, fun t ht => hv t (Nat.zero_le t) ht, hl⟩
  | succ i ih =>
      intro v lpos hi hlen hv hl
      have hrec : mt_loop s c (i + 1) v lpos
          = mt_loop s c i (v.set i (if s.getD i '?' = c then some i else lpos))
            (if s.getD i '?' = c then some i else lpos) := by
        rw [mt_loop]
      have hlp : (if s.getD i '?' = c then some i else lpos) = first_occ_from s c i := by
        rw [first_occ_from_rec (by omega), hl]
      rw [hrec]
      apply ih _ _ (by omega) (by rw [List.length_set]; exact hlen)
      · intro t ht1 ht2
        rcases Nat.eq_or_lt_of_le ht1 with hti | hti
        · subst hti
          rw [List.getElem?_set_self (by omega), hlp]
        · rw [List.getElem?_set_ne (by omega)]
          exact hv t hti ht2
      · exact hlp

lemma mt_col_length (s : List Char) (c : Char) : (mt_col s c).1.length = s.length := by
  unfold mt_col
  exact (mt_loop_spec s c s.length _ _ le_rfl (List.length_replicate _ _)
    (fun t h1 h2 => by omega) (first_occ_from_of_ge le_rfl).symm).1

lemma mt_col_getElem? (s : List Char) (c : Char) {t : Nat} (ht : t < s.length) :
    (mt_col s c).1[t]? = some (first_occ_from s c t) := by
  unfold mt_col
  exact (mt_loop_spec s c s.length _ _ le_rfl (List.length_replicate _ _)
    (fun t h1 h2 => by omega) (first_occ_from_of_ge le_rfl).symm).2.1 t ht

lemma mt_col_getD (s : List Char) (c : Char) (t : Nat) :
    (mt_col s c).1.getD t none = first_occ_from s c t := by
  by_cases ht : t < s.length
  · rw [List.getD_eq_getElem?_getD, mt_col_getElem? s c ht]
    rfl
  · rw [List.getD_eq_getElem?_getD,
      List.getElem?_eq_none (by rw [mt_col_length]; omega),
      first_occ_from_of_ge (by omega)]
    rfl

lemma mt_col_snd (s : List Char) (c : Char) :
    (mt_col s c).2 = first_occ_from s c 0 := by
  unfold mt_col
  exact (mt_loop_spec s c s.length _ _ le_rfl (List.length_replicate _ _)
    (fun t h1 h2 => by omega) (first_occ_from_of_ge le_rfl).symm).2.2

lemma mt_chain_eq_some {chains : List (List Char)} {ch : Char}
    (h : ∀ s ∈ chains, ch ∈ s) :
    mt_chain chains ch = some (chains.map (fun s => (mt_col s ch).1)) := by
  induction chains with
  | nil => rfl
  | cons s rest ih =>
      unfold mt_chain
      obtain ⟨j, hj⟩ := mem_iff_first_occ.mp (h s (List.mem_cons_self s rest))
      rw [mt_col_snd, hj]
      rw [ih (fun s' hs' => h s' (List.mem_cons_of_mem s hs'))]
      rfl

lemma mt_chain_eq_none {chains : List (List Char)} {ch : Char}
    (h : ∃ s ∈ chains, ch ∉ s) :
    mt_chain chains ch = none := by
  induction chains with
  | nil => obtain ⟨s, hs, _⟩ := h; exact absurd hs (List.not_mem_nil s)
  | cons s rest ih =>
      unfold mt_chain
      obtain ⟨s', hs', hns'⟩ := h
      rcases List.mem_cons.mp hs' with he | he
      · subst he
        have : first_occ_from s' ch 0 = none := by
          cases hf : first_occ_from s' ch 0 with
          | none => rfl
          | some j => exact absurd (mem_iff_first_occ.mpr ⟨j, hf⟩) hns'
        rw [mt_col_snd, this]
      · cases hf : (mt_col s ch).2 with
        | none => rfl
        | some j => rw [ih ⟨s', he, hns'⟩]; rfl

lemma mt_table_go_fst (chains : List (List Char)) :
    ∀ (letters alph : List Char),
      (mt_table_go chains letters alph).1
        = (letters.filter (fun c => decide (∀ s ∈ chains, c ∈ s))).map
            (fun ch => chains.map (fun s => (mt_col s ch).1)) := by
  intro letters
  induction letters with
  | nil => intro alph; rfl
  | cons ch rest ih =>
      intro alph
      by_cases hg : ∀ s ∈ chains, ch ∈ s
      · unfold mt_table_go
        rw [mt_chain_eq_some hg]
        have hfc : List.filter (fun c => decide (∀ s ∈ chains, c ∈ s)) (ch :: rest)
            = ch :: List.filter (fun c => decide (∀ s ∈ chains, c ∈ s)) rest := by
          rw [List.filter_cons, decide_eq_true hg]
          simp
        show (chains.map (fun s => (mt_col s ch).1)) :: (mt_table_go chains rest alph).1 = _
        rw [hfc, List.map_cons, ih alph]
      · unfold mt_table_go
        rw [mt_chain_eq_none (by push_neg at hg; obtain ⟨s, hs, hn⟩ := hg; exact ⟨s, hs, hn⟩)]
        have hfc : List.filter (fun c => decide (∀ s ∈ chains, c ∈ s)) (ch :: rest)
            = List.filter (fun c => decide (∀ s ∈ chains, c ∈ s)) rest := by
          rw [List.filter_cons, decide_eq_false hg]
          simp
        show (mt_table_go chains rest (alph.filter (fun x => decide (x ≠ ch)))).1 = _
        rw [hfc, ih _]

lemma mt_table_go_snd (chains : List (List Char)) :
    ∀ (letters alph : List Char),
      (mt_table_go chains letters alph).2
        = alph.filter (fun c => decide (c ∈ letters → ∀ s ∈ chains, c ∈ s)) := by
  intro letters
  induction letters with
  | nil =>
      intro alph
      unfold mt_table_go
      symm
      apply List.filter_eq_self.mpr
      intro a _
      exact decide_eq_true (fun hmem => absurd hmem (List.not_mem_nil a))
  | cons ch rest ih =>
      intro alph
      by_cases hg : ∀ s ∈ chains, ch ∈ s
      · unfold mt_table_go
        rw [mt_chain_eq_some hg]
        show (mt_table_go chains rest alph).2 = _
        rw [ih alph]
        apply List.filter_congr
        intro x _
        apply decide_eq_decide.mpr
        constructor
        · intro hx hmem
          rcases List.mem_cons.mp hmem with he | he
          · subst he; exact hg
          · exact hx he
        · intro hx hmem
          exact hx (List.mem_cons_of_mem ch hmem)
      · unfold mt_table_go
        rw [mt_chain_eq_none (by push_neg at hg; obtain ⟨s, hs, hn⟩ := hg; exact ⟨s, hs, hn⟩)]
        rw [ih _, List.filter_filter]
        apply List.filter_congr
        intro x _
        by_cases hx : x = ch
        · subst hx
          have h1 : decide (x ∈ x :: rest → ∀ s ∈ chains, x ∈ s) = false :=
            decide_eq_false (fun hc => hg (hc (List.mem_cons_self x rest)))
          rw [h1]
          simp
        · have h2 : (decide ¬x = ch) = true := decide_eq_true hx
          have h3 : decide (x ∈ rest → ∀ s ∈ chains, x ∈ s)
              = decide (x ∈ ch :: rest → ∀ s ∈ chains, x ∈ s) := by
            apply decide_eq_decide.mpr
            constructor
            · intro ha hmem
              rcases List.mem_cons.mp hmem with he | he
              · exact absurd he hx
              · exact ha he
            · intro ha hmem
              exact ha (List.mem_cons_of_mem ch hmem)
          rw [← h3, h2, Bool.and_true]

lemma Context.new_spec {chains : List (List Char)} {ctx : Context}
    (h : Context.new chains = some ctx) :
    ctx.chains = chains ∧ ctx.d = chains.length ∧ 0 < chains.length ∧
  ctx.ms = matrices_score chains ∧
  ctx.mt = ctx.alphabet.map (fun ch => chains.map (fun s => (mt_col s ch).1)) ∧
  (∀ c ∈ ctx.alphabet, ∀ s ∈ chains, c ∈ s) ∧
  ctx.f = (fun q => if q = rootPt chains.length then some 0 else none) ∧
  ctx.g = (fun q => if q = rootPt chains.length then some 0 else none) ∧
  ctx.parents = (fun q => if q = rootPt chains.length then some none else none) := by
  have hne : chains ≠ [] := by
    intro hnil
    rw [hnil] at h
    exact absurd h (by simp [Context.new, get_alphabet])
  have halpha : ∃ a0, get_alphabet chains = some a0 := by
    cases chains with
    | nil => exact absurd rfl hne
    | cons c0 cr => exact ⟨_, rfl⟩
  obtain ⟨a0, ha0⟩ := halpha
  unfold Context.new at h
  rw [ha0] at h
  simp only [Option.some_inj] at h
  subst h
  have hmtsnd := mt_table_go_snd chains a0 a0
  have hmtfst := mt_table_go_fst chains a0
  have halphfilter : (mt_table chains a0).2
      = a0.filter (fun c => decide (∀ s ∈ chains, c ∈ s)) := by
    show (mt_table_go chains a0 a0).2 = _
    rw [hmtsnd]
    apply List.filter_congr
    intro x hx
    apply decide_eq_decide.mpr
    exact ⟨fun ha => ha hx, fun ha _ => ha⟩
  have halphmem : ∀ c ∈ (mt_table chains a0).2, ∀ s ∈ chains, c ∈ s := by
    intro c hc s hs
    rw [halphfilter] at hc
    obtain ⟨hmem, hdec⟩ := List.mem_filter.mp hc
    exact of_decide_eq_true hdec s hs
  refine ⟨rfl, rfl, List.length_pos.mpr hne, rfl, ?_, halphmem, rfl, rfl, rfl⟩
  show (mt_table chains a0).1 = ((mt_table chains a0).2).map
      (fun ch => chains.map (fun s => (mt_col s ch).1))
  rw [halphfilter]
  show (mt_table_go chains a0 a0).1 = _
  rw [hmtfst a0]

lemma succ_go_all_some (mtc : List (List (Option Nat))) :
    ∀ (ps : List (Option Nat)) (i0 : Nat) (acc : List (Option Nat)),
      (∀ t, t < ps.length → ∃ k j, ps.getD t none = some k ∧
          (mtc.getD (i0 + t) []).getD (k + 1) none = some j) →
      succ_go mtc ps i0 acc
        = acc ++ (List.range ps.length).map (fun t =>
            match ps.getD t none with
            | some k => (mtc.getD (i0 + t) []).getD (k + 1) none
            | none => none) := by
  intro ps
  induction ps with
  | nil => intro i0 acc _; simp [succ_go]
  | cons po rest ih =>
      intro i0 acc hall
      obtain ⟨k, j, hk, hj⟩ := hall 0 (by simp)
      have hpo : po = some k := by simpa using hk
      subst hpo
      have hj0 : (mtc.getD (i0 + 0) []).getD (k + 1) none = some j := hj
      rw [succ_go]
      simp only [Nat.add_zero] at hj0
      rw [hj0]
      show succ_go mtc rest (i0 + 1) (acc ++ [some j]) = _
      rw [ih (i0 + 1) (acc ++ [some j]) (fun t ht => by
        obtain ⟨k', j', hk', hj'⟩ := hall (t + 1) (by simpa using Nat.succ_lt_succ ht)
        exact ⟨k', j', by simpa using hk', by
          have : i0 + (t + 1) = i0 + 1 + t := by omega
          rw [this] at hj'
          exact hj'⟩)]
      simp only [List.length_cons]
      rw [List.range_succ_eq_map, List.map_cons, List.map_map]
      rw [List.append_assoc]
      congr 1
      rw [List.singleton_append]
      congr 1
      · show some j = (mtc.getD (i0 + 0) []).getD (k + 1) none
        rw [Nat.add_zero]
        exact hj0.symm
      · apply List.map_congr_left
        intro t _
        have harith : i0 + 1 + t = i0 + (t + 1) := by omega
        rw [harith]
        rfl

lemma succ_go_length_le (mtc : List (List (Option Nat))) :
    ∀ (ps : List (Option Nat)) (i0 : Nat) (acc : List (Option Nat)),
      (succ_go mtc ps i0 acc).length ≤ acc.length + ps.length := by
  intro ps
  induction ps with
  | nil => intro i0 acc; simp [succ_go]
  | cons po rest ih =>
      intro i0 acc
      cases po with
      | none =>
          rw [succ_go]
          calc (succ_go mtc rest (i0 + 1) acc).length ≤ acc.length + rest.length := ih _ _
          _ ≤ acc.length + ((none : Option Nat) :: rest).length := by simp
      | some k =>
          rw [succ_go]
          cases hl : (mtc.getD i0 []).getD (k + 1) none with
          | none =>
              show acc.length ≤ _
              simp
          | some j =>
              show (succ_go mtc rest (i0 + 1) (acc ++ [some j])).length ≤ _
              calc (succ_go mtc rest (i0 + 1) (acc ++ [some j])).length
                  ≤ (acc ++ [some j]).length + rest.length := ih _ _
              _ = acc.length + (some k :: rest).length := by simp; omega

lemma succ_go_short (mtc : List (List (Option Nat))) :
    ∀ (ps : List (Option Nat)) (i0 : Nat) (acc : List (Option Nat)),
      (∃ t, t < ps.length ∧ ∃ k, ps.getD t none = some k ∧
          (mtc.getD (i0 + t) []).getD (k + 1) none = none) →
      (succ_go mtc ps i0 acc).length < acc.length + ps.length := by
  intro ps
  induction ps with
  | nil =>
      intro i0 acc h
      obtain ⟨t, ht, _⟩ := h
      simp at ht
  | cons po rest ih =>
      intro i0 acc h
      cases po with
      | none =>
          rw [succ_go]
          calc (succ_go mtc rest (i0 + 1) acc).length ≤ acc.length + rest.length :=
            succ_go_length_le mtc rest (i0 + 1) acc
          _ < acc.length + ((none : Option Nat) :: rest).length := by simp
      | some k =>
          rw [succ_go]
          cases hl : (mtc.getD i0 []).getD (k + 1) none with
          | none =>
              show acc.length < _
              simp
          | some j =>
              show (succ_go mtc rest (i0 + 1) (acc ++ [some j])).length < _
              obtain ⟨t, ht, k', hk', hnone⟩ := h
              cases t with
              | zero =>
                  have : k = k' := by simpa using hk'
                  subst this
                  rw [Nat.add_zero] at hnone
                  rw [hnone] at hl
                  exact absurd hl (by simp)
              | succ t =>
                  have hlt := ih (i0 + 1) (acc ++ [some j]) ⟨t, by simpa using ht, k',
                    by simpa using hk', by
                      have : i0 + (t + 1) = i0 + 1 + t := by omega
                      rw [this] at hnone
                      exact hnone⟩
                  calc (succ_go mtc rest (i0 + 1) (acc ++ [some j])).length
                      < (acc ++ [some j]).length + rest.length := hlt
                  _ = acc.length + (some k :: rest).length := by simp; omega

lemma range_find?_eq_none {q : Nat → Bool} :
    ∀ {n : Nat}, (List.range n).find? q = none ↔ ∀ j, j < n → q j = false := by
  intro n
  induction n with
  | zero => simp [List.range_zero]
  | succ n ih =>
      rw [List.range_succ, List.find?_append]
      constructor
      · intro h j hj
        have h1 : (List.range n).find? q = none := by
          cases hq : (List.range n).find? q with
          | none => rfl
          | some x => rw [hq] at h; exact absurd h (by simp [Option.or])
        have h2 : List.find? q [n] = none := by
          rw [h1] at h
          simpa [Option.or] using h
        rcases Nat.lt_succ_iff_lt_or_eq.mp hj with hj | hj
        · exact ih.mp h1 j hj
        · subst hj
          cases hqn : q j with
          | false => rfl
          | true => rw [List.find?_cons, hqn] at h2; exact absurd h2 (by simp)
      · intro h
        have h1 : (List.range n).find? q = none := ih.mpr (fun j hj => h j (by omega))
        rw [h1]
        have h2 : List.find? q [n] = none := by
          rw [List.find?_cons, h n (Nat.lt_succ_self n)]
          rfl
        rw [h2]
        rfl

lemma range_find?_eq_some {q : Nat → Bool} :
    ∀ {n j : Nat}, (List.range n).find? q = some j ↔
      (j < n ∧ q j = true ∧ ∀ i, i < j → q i = false) := by
  intro n
  induction n with
  | zero => intro j; simp [List.range_zero]
  | succ n ih =>
      intro j
      rw [List.range_succ, List.find?_append]
      cases hfind : (List.range n).find? q with
      | some j' =>
          simp only [Option.or]
          obtain ⟨h1, h2, h3⟩ := ih.mp hfind
          constructor
          · intro h
            have : j' = j := by simpa using h
            subst this
            exact ⟨by omega, h2, h3⟩
          · intro ⟨ha, hb, hc⟩
            rcases Nat.lt_trichotomy j j' with hlt | heq | hgt
            · exact absurd hb (by rw [h3 j hlt]; simp)
            · rw [heq]
            · exact absurd h2 (by rw [hc j' hgt]; simp)
      | none =>
          simp only [Option.or]
          rw [List.find?_cons]
          cases hqn : q n with
          | true =>
              constructor
              · intro h
                have : n = j := by simpa using h
                subst this
                exact ⟨Nat.lt_succ_self n, hqn, fun i hi =>
                  range_find?_eq_none.mp hfind i hi⟩
              · intro ⟨ha, hb, hc⟩
                have : j = n := by
                  rcases Nat.lt_succ_iff_lt_or_eq.mp ha with hj | hj
                  · exact absurd hb (by rw [range_find?_eq_none.mp hfind j hj]; simp)
                  · exact hj
                subst this
                rfl
          | false =>
              constructor
              · intro h
                exact absurd h (by simp)
              · intro ⟨ha, hb, hc⟩
                rcases Nat.lt_succ_iff_lt_or_eq.mp ha with hj | hj
                · exact absurd hb (by rw [range_find?_eq_none.mp hfind j hj]; simp)
                · subst hj
                  exact absurd hb (by rw [hqn]; simp)

lemma next_strictly_after_eq (l : List Char) (c : Char) (k : Nat) :
    next_strictly_after l c k = first_occ_from l c (k + 1) := by
  unfold next_strictly_after
  cases hf : first_occ_from l c (k + 1) with
  | some j =>
      obtain ⟨h1, h2, h3, h4⟩ := first_occ_from_some hf
      apply range_find?_eq_some.mpr
      refine ⟨h2, ?_, ?_⟩
      · rw [Bool.and_eq_true]
        exact ⟨decide_eq_true (by omega), decide_eq_true h3⟩
      · intro i hi
        by_cases hki : k < i
        · rw [Bool.and_eq_false_iff]
          right
          exact decide_eq_false (h4 i (by omega) hi)
        · rw [Bool.and_eq_false_iff]
          left
          exact decide_eq_false hki
  | none =>
      apply range_find?_eq_none.mpr
      intro j hj
      by_cases hkj : k < j
      · rw [Bool.and_eq_false_iff]
        right
        exact decide_eq_false (first_occ_from_none hf j (by omega) hj)
      · rw [Bool.and_eq_false_iff]
        left
        exact decide_eq_false hkj

lemma mapM_zip_some_facts (c : Char) :
    ∀ (cs : List (List Char)) (p q : Point),
      p.length = cs.length →
      (cs.zip p).mapM (fun sp =>
        match sp.2 with
        | none => none
        | some k => (next_strictly_after sp.1 c k).map some) = some q →
      q.length = cs.length ∧
        ∀ i, i < cs.length → ∃ k j, p.getD i none = some k ∧ q.getD i none = some j ∧
          next_strictly_after (cs.getD i []) c k = some j := by
  intro cs
  induction cs with
  | nil =>
      intro p q hlen h
      rw [List.zip_nil_left, List.mapM_nil] at h
      have hq : q = [] := (Option.some_inj.mp h).symm
      subst hq
      exact ⟨rfl, fun i hi => by simp at hi⟩
  | cons s cr ih =>
      intro p q hlen h
      cases p with
      | nil => simp at hlen
      | cons po pr =>
          rw [List.zip_cons_cons, List.mapM_cons] at h
          cases po with
          | none => simp at h
          | some k =>
              cases hnsa : next_strictly_after s c k with
              | none =>
                  simp only [hnsa] at h
                  simp at h
              | some j =>
                  simp only [hnsa] at h
                  cases hrest : (cr.zip pr).mapM (fun sp =>
                      match sp.2 with
                      | none => none
                      | some k => (next_strictly_after sp.1 c k).map some) with
                  | none =>
                      simp only [hrest] at h
                      simp at h
                  | some qr =>
                      simp only [hrest] at h
                      have hq : q = some j :: qr := by
                        simpa using h.symm
                      subst hq
                      have hlen' : pr.length = cr.length := by simpa using hlen
                      obtain ⟨hl, hfacts⟩ := ih pr qr hlen' hrest
                      refine ⟨by simpa using hl, ?_⟩
                      intro i hi
                      cases i with
                      | zero => exact ⟨k, j, rfl, rfl, hnsa⟩
                      | succ i =>
                          obtain ⟨k', j', h1, h2, h3⟩ := hfacts i (by simpa using hi)
                          exact ⟨k', j', by simpa using h1, by simpa using h2, by
                            simpa using h3⟩

lemma mapM_zip_eq_some (c : Char) :
    ∀ (cs : List (List Char)) (p : Point),
      p.length = cs.length →
      (∀ i, i < cs.length → ∃ k j, p.getD i none = some k ∧
          next_strictly_after (cs.getD i []) c k = some j) →
      (cs.zip p).mapM (fun sp =>
        match sp.2 with
        | none => none
        | some k => (next_strictly_after sp.1 c k).map some)
      = some ((List.range cs.length).map (fun t =>
          match p.getD t none with
          | some k => next_strictly_after (cs.getD t []) c k
          | none => none)) := by
  intro cs
  induction cs with
  | nil =>
      intro p _ _
      rw [List.zip_nil_left, List.mapM_nil]
      simp
  | cons s cr ih =>
      intro p hlen hall
      cases p with
      | nil => simp at hlen
      | cons po pr =>
          obtain ⟨k, j, hk, hj⟩ := hall 0 (by simp)
          have hpo : po = some k := by simpa using hk
          subst hpo
          have hnsa : next_strictly_after s c k = some j := by simpa using hj
          have hrest := ih pr (by simpa using hlen) (fun i hi => by
            obtain ⟨k', j', h1, h2⟩ := hall (i + 1) (by simpa using hi)
            exact ⟨k', j', by simpa using h1, by simpa using h2⟩)
          have hrhs : (List.range (s :: cr).length).map (fun t =>
              match (some k :: pr).getD t none with
              | some k' => next_strictly_after ((s :: cr).getD t []) c k'
              | none => none)
            = next_strictly_after s c k :: (List.range cr.length).map (fun t =>
              match pr.getD t none with
              | some k' => next_strictly_after (cr.getD t []) c k'
              | none => none) := by
            simp only [List.length_cons]
            rw [List.range_succ_eq_map, List.map_cons, List.map_map]
            apply List.cons_eq_cons.mpr
            refine ⟨rfl, ?_⟩
            apply List.map_congr_left
            intro t _
            rfl
          rw [List.zip_cons_cons, List.mapM_cons, hrest, hrhs]
          show ((next_strictly_after s c k).map some >>= _) = _
          rw [hnsa]
          rfl

lemma mapM_zip_eq_none (c : Char) :
    ∀ (cs : List (List Char)) (p : Point),
      p.length = cs.length →
      (∃ i, i < cs.length ∧ ∃ k, p.getD i none = some k ∧
          next_strictly_after (cs.getD i []) c k = none) →
      (cs.zip p).mapM (fun sp =>
        match sp.2 with
        | none => none
        | some k => (next_strictly_after sp.1 c k).map some) = none := by
  intro cs
  induction cs with
  | nil =>
      intro p _ h
      obtain ⟨i, hi, _⟩ := h
      simp at hi
  | cons s cr ih =>
      intro p hlen h
      cases p with
      | nil => simp at hlen
      | cons po pr =>
          rw [List.zip_cons_cons, List.mapM_cons]
          obtain ⟨i, hi, k, hk, hnone⟩ := h
          cases i with
          | zero =>
              have hpo : po = some k := by simpa using hk
              subst hpo
              show (next_strictly_after s c k).map some >>= _ = _
              have : next_strictly_after s c k = none := by simpa using hnone
              rw [this]
              rfl
          | succ i =>
              cases po with
              | none => rfl
              | some k0 =>
                  show ((next_strictly_after s c k0).map some >>= _) = _
                  cases hnsa : next_strictly_after s c k0 with
                  | none => rfl
                  | some j0 =>
                      have hrest := ih pr (by simpa using hlen)
                        ⟨i, by simpa using hi, k, by simpa using hk, by simpa using hnone⟩
                      rw [hrest]
                      rfl

lemma mt_getD_eq {ctx : Context} {chains : List (List Char)} (hst : StructOk chains ctx)
    {ci : Nat} (hci : ci < ctx.alphabet.length) :
    ctx.mt.getD ci [] = chains.map (fun s => (mt_col s (ctx.alphabet[ci])).1) := by
  obtain ⟨_, _, _, _, hmt, _⟩ := hst
  conv_lhs => rw [hmt]
  rw [getD_of_lt (by rw [List.length_map]; exact hci), List.getElem_map]

lemma mt_lookup_eq {chains : List (List Char)} {ch : Char} {i k : Nat}
    (hi : i < chains.length) :
    ((chains.map (fun s => (mt_col s ch).1)).getD i []).getD (k + 1) none
      = first_occ_from (chains.getD i []) ch (k + 1) := by
  rw [getD_of_lt (a := i) (by rw [List.length_map]; exact hi), List.getElem_map,
    mt_col_getD, getD_of_lt hi]

lemma filterMap_range_eq {α β : Type _} (l : List α) (F : Nat → Option β) (G : α → Option β)
    (h : ∀ i, (hi : i < l.length) → F i = G l[i]) :
    (List.range l.length).filterMap F = l.filterMap G := by
  induction l generalizing F with
  | nil => simp
  | cons x rest ih =>
      have htail : (List.range rest.length).filterMap (F ∘ Nat.succ) = rest.filterMap G :=
        ih (F ∘ Nat.succ) (fun i hi => by
          have hx := h (i + 1) (by simpa using Nat.succ_lt_succ hi)
          simpa using hx)
      have h0 := h 0 (by simp)
      simp only [List.length_cons]
      rw [List.range_succ_eq_map, List.filterMap_cons, List.filterMap_cons,
        List.filterMap_map, htail, h0]
      rfl

lemma take_eq_self_of_valid {chains : List (List Char)} {p : Point} (hv : ValidPt chains p) :
    p.take chains.length = p := by
  rw [← hv.1]
  exact List.take_length p

lemma get_successors_eq_spec {chains : List (List Char)} {ctx : Context} {p : Point}
    (hst : StructOk chains ctx) (hv : ValidPt chains p) :
    get_successors ctx p = get_successors_spec ctx p := by
  have hch : ctx.chains = chains := hst.1
  unfold get_successors get_successors_spec
  rw [hch]
  apply filterMap_range_eq ctx.alphabet _ _
  intro ci hci
  have hmtd := mt_getD_eq hst hci
  by_cases hall : ∀ i, i < chains.length → ∀ k, p.getD i none = some k →
      ∃ j, first_occ_from (chains.getD i []) ctx.alphabet[ci] (k + 1) = some j
  · have hgo := succ_go_all_some (ctx.mt.getD ci []) (p.take chains.length) 0 []
      (fun t ht => by
        rw [take_eq_self_of_valid hv] at ht ⊢
        rw [hv.1] at ht
        obtain ⟨k, hk, _⟩ := hv.2 t ht
        obtain ⟨j, hj⟩ := hall t ht k hk
        refine ⟨k, j, hk, ?_⟩
        rw [Nat.zero_add, hmtd, mt_lookup_eq ht, hj])
    rw [take_eq_self_of_valid hv] at hgo
    show (if (succ_go (ctx.mt.getD ci []) (p.take chains.length) 0 []).length = chains.length
        then some (succ_go (ctx.mt.getD ci []) (p.take chains.length) 0 []) else none)
      = (chains.zip p).mapM (fun sp =>
          match sp.2 with
          | none => none
          | some k => (next_strictly_after sp.1 ctx.alphabet[ci] k).map some)
    rw [take_eq_self_of_valid hv, hgo, List.nil_append]
    rw [if_pos (by simp [hv.1])]
    rw [mapM_zip_eq_some ctx.alphabet[ci] chains p hv.1 (fun i hi => by
      obtain ⟨k, hk, _⟩ := hv.2 i hi
      obtain ⟨j, hj⟩ := hall i hi k hk
      exact ⟨k, j, hk, by rw [next_strictly_after_eq]; exact hj⟩)]
    congr 1
    rw [hv.1]
    apply List.map_congr_left
    intro t ht
    have hti : t < chains.length := List.mem_range.mp ht
    cases hpt : p.getD t none with
    | none => rfl
    | some k =>
        show ((ctx.mt.getD ci []).getD (0 + t) []).getD (k + 1) none
          = next_strictly_after (chains.getD t []) ctx.alphabet[ci] k
        rw [Nat.zero_add, hmtd, mt_lookup_eq hti, next_strictly_after_eq]
  · push_neg at hall
    obtain ⟨i, hi, k, hk, hno⟩ := hall
    have hnone : first_occ_from (chains.getD i []) ctx.alphabet[ci] (k + 1) = none := by
      cases hf : first_occ_from (chains.getD i []) ctx.alphabet[ci] (k + 1) with
      | none => rfl
      | some j => exact absurd hf (hno j)
    have htake : p.take chains.length = p := take_eq_self_of_valid hv
    have hshort := succ_go_short (ctx.mt.getD ci []) (p.take chains.length) 0 []
      ⟨i, by rw [htake, hv.1]; exact hi, k, by rw [htake]; exact hk, by
        rw [Nat.zero_add, hmtd, mt_lookup_eq hi, hnone]⟩
    have hrhs : (chains.zip p).mapM (fun sp =>
        match sp.2 with
        | none => none
        | some k => (next_strictly_after sp.1 ctx.alphabet[ci] k).map some) = none :=
      mapM_zip_eq_none _ chains p hv.1
        ⟨i, hi, k, hk, by rw [next_strictly_after_eq]; exact hnone⟩
    show (if (succ_go (ctx.mt.getD ci []) (p.take chains.length) 0 []).length = chains.length
        then some (succ_go (ctx.mt.getD ci []) (p.take chains.length) 0 []) else none)
      = (chains.zip p).mapM (fun sp =>
          match sp.2 with
          | none => none
          | some k => (next_strictly_after sp.1 ctx.alphabet[ci] k).map some)
    rw [hrhs, if_neg (by
      rw [htake] at hshort ⊢
      rw [hv.1] at hshort
      simp only [List.length_nil, Nat.zero_add] at hshort
      omega)]

lemma get_successors_mem_facts {chains : List (List Char)} {ctx : Context} {p q : Point}
    (hst : StructOk chains ctx) (hv : ValidPt chains p) (hq : q ∈ get_successors ctx p) :
    ∃ c ∈ ctx.alphabet, q.length = chains.length ∧
      ∀ i, i < chains.length → ∃ k j, p.getD i none = some k ∧ q.getD i none = some j ∧
        first_occ_from (chains.getD i []) c (k + 1) = some j := by
  rw [get_successors_eq_spec hst hv] at hq
  unfold get_successors_spec at hq
  rw [hst.1] at hq
  obtain ⟨c, hc, hmapM⟩ := List.mem_filterMap.mp hq
  obtain ⟨hlen, hfacts⟩ := mapM_zip_some_facts c chains p q hv.1 hmapM
  refine ⟨c, hc, hlen, fun i hi => ?_⟩
  obtain ⟨k, j, h1, h2, h3⟩ := hfacts i hi
  exact ⟨k, j, h1, h2, by rw [← next_strictly_after_eq]; exact h3⟩

lemma successor_good {chains : List (List Char)} {ctx : Context} {p q : Point}
    (hst : StructOk chains ctx) (hv : ValidPt chains p) (hq : q ∈ get_successors ctx p) :
    ValidPt chains q ∧
      (∃ c, ∀ i, i < chains.length → ∀ kq, q.getD i none = some kq →
        (chains.getD i []).getD kq '?' = c) ∧
      (∀ i, i < chains.length → ∀ kp kq, p.getD i none = some kp →
        q.getD i none = some kq → kp < kq) := by
  obtain ⟨c, _, hlen, hfacts⟩ := get_successors_mem_facts hst hv hq
  refine ⟨⟨hlen, fun i hi => ?_⟩, ⟨c, fun i hi kq hkq => ?_⟩, fun i hi kp kq hkp hkq => ?_⟩
  · obtain ⟨k, j, _, h2, h3⟩ := hfacts i hi
    obtain ⟨_, hjlt, _, _⟩ := first_occ_from_some h3
    exact ⟨j, h2, hjlt⟩
  · obtain ⟨k, j, _, h2, h3⟩ := hfacts i hi
    obtain ⟨_, _, hchar, _⟩ := first_occ_from_some h3
    rw [h2] at hkq
    cases hkq
    exact hchar
  · obtain ⟨k, j, h1, h2, h3⟩ := hfacts i hi
    obtain ⟨hge, _, _, _⟩ := first_occ_from_some h3
    rw [h1] at hkp
    rw [h2] at hkq
    cases hkp
    cases hkq
    omega

lemma get_starting_p_mem_facts {chains : List (List Char)} {ctx : Context} {q : Point}
    (hst : StructOk chains ctx) (hq : q ∈ get_starting_p ctx) :
    ValidPt chains q ∧
      ∃ c, ∀ i, i < chains.length → ∀ kq, q.getD i none = some kq →
        (chains.getD i []).getD kq '?' = c := by
  unfold get_starting_p at hq
  rw [hst.1] at hq
  obtain ⟨ci, hci, hqe⟩ := List.mem_map.mp hq
  have hcilt : ci < ctx.alphabet.length := by
    have := List.mem_range.mp hci
    exact this
  have hmtd := mt_getD_eq hst hcilt
  have hcomp : ∀ i, i < chains.length → q.getD i none
      = first_occ_from (chains.getD i []) ctx.alphabet[ci] 0 := by
    intro i hi
    rw [← hqe]
    rw [getD_of_lt (by rw [List.length_map, List.length_range]; exact hi)]
    rw [List.getElem_map, List.getElem_range, hmtd]
    rw [getD_of_lt (a := i) (by rw [List.length_map]; exact hi), List.getElem_map,
      mt_col_getD, getD_of_lt hi]
  have hsome : ∀ i, i < chains.length →
      ∃ j, first_occ_from (chains.getD i []) ctx.alphabet[ci] 0 = some j := by
    intro i hi
    have hmem : ctx.alphabet[ci] ∈ chains.getD i [] := by
      have := hst.2.2.2.2.2 ctx.alphabet[ci] (List.getElem_mem hcilt) (chains.getD i [])
      exact this (by rw [getD_of_lt hi]; exact List.getElem_mem hi)
    exact mem_iff_first_occ.mp hmem
  have hqlen : q.length = chains.length := by
    rw [← hqe, List.length_map, List.length_range]
  refine ⟨⟨hqlen, fun i hi => ?_⟩, ⟨ctx.alphabet[ci], fun i hi kq hkq => ?_⟩⟩
  · obtain ⟨j, hj⟩ := hsome i hi
    obtain ⟨_, hjlt, _, _⟩ := first_occ_from_some hj
    exact ⟨j, by rw [hcomp i hi, hj], hjlt⟩
  · rw [hcomp i hi] at hkq
    obtain ⟨_, _, hchar, _⟩ := first_occ_from_some hkq
    exact hchar

lemma update_suc_chains (ctx : Context) (p q : Point) :
    (update_suc ctx p q).chains = ctx.chains := rfl

lemma update_suc_parents_apply (ctx : Context) (p q x : Point) :
    (update_suc ctx p q).parents x = if x = q then some (some p) else ctx.parents x := rfl

lemma update_suc_g_apply (ctx : Context) (p q x : Point) :
    (update_suc ctx p q).g x = if x = q then some ((ctx.g p).getD 0 + 1) else ctx.g x := rfl

lemma update_suc_f_apply (ctx : Context) (p q x : Point) :
    (update_suc ctx p q).f x
      = if x = q then some (heuristic ctx q + ((ctx.g p).getD 0 + 1)) else ctx.f x := rfl

lemma update_suc_structok {chains : List (List Char)} {ctx : Context} (p q : Point)
    (hst : StructOk chains ctx) : StructOk chains (update_suc ctx p q) := hst

lemma rootPt_getD (d i : Nat) : (rootPt d).getD i none = none := by
  unfold rootPt
  by_cases hi : i < d
  · rw [List.getD_eq_getElem?_getD, List.getElem?_replicate, if_pos hi]
    rfl
  · rw [List.getD_eq_getElem?_getD, List.getElem?_eq_none (by simpa using Nat.le_of_not_lt hi)]
    rfl

lemma valid_ne_root {chains : List (List Char)} {q : Point} (hv : ValidPt chains q)
    (hd : 0 < chains.length) : q ≠ rootPt chains.length := by
  intro heq
  obtain ⟨k, hk, _⟩ := hv.2 0 hd
  rw [heq, rootPt_getD] at hk
  exact absurd hk (by simp)

lemma update_suc_rootok {chains : List (List Char)} {ctx : Context} {p q : Point}
    (hst : StructOk chains ctx) (hro : RootOk ctx) (hv : ValidPt chains q) :
    RootOk (update_suc ctx p q) := by
  have hne : rootPt ctx.chains.length ≠ q := by
    rw [hst.1]
    exact fun h => valid_ne_root hv hst.2.2.1 h.symm
  obtain ⟨h1, h2, h3⟩ := hro
  refine ⟨?_, ?_, ?_⟩
  · rw [update_suc_chains, update_suc_parents_apply, if_neg hne]
    exact h1
  · rw [update_suc_chains, update_suc_g_apply, if_neg hne]
    exact h2
  · rw [update_suc_chains, update_suc_f_apply, if_neg hne]
    exact h3

lemma update_suc_parentinv {chains : List (List Char)} {ctx : Context} {p q : Point}
    (hst : StructOk chains ctx) (hpi : ParentInv ctx)
    (hvq : ValidPt chains q)
    (hcoh : ∃ c, ∀ i, i < chains.length → ∀ kq, q.getD i none = some kq →
      (chains.getD i []).getD kq '?' = c)
    (hpar : p = rootPt chains.length ∨
      (ValidPt chains p ∧ ∀ i, i < chains.length → ∀ kp kq,
        p.getD i none = some kp → q.getD i none = some kq → kp < kq)) :
    ParentInv (update_suc ctx p q) := by
  intro x par hx
  rw [update_suc_parents_apply] at hx
  rw [update_suc_chains, hst.1]
  by_cases hxq : x = q
  · rw [if_pos hxq] at hx
    have hpar' : p = par := by simpa using hx
    subst hpar'
    subst hxq
    exact ⟨hvq, hcoh, hpar⟩
  · rw [if_neg hxq] at hx
    have := hpi x par hx
    rw [hst.1] at this
    exact this

lemma take_sublist_take {α : Type _} (l : List α) {a b : Nat} (h : a ≤ b) :
    (l.take a).Sublist (l.take b) := by
  have heq := List.take_take a b l
  rw [Nat.min_eq_left h] at heq
  exact heq ▸ List.take_sublist a (l.take b)

lemma take_succ_eq {α : Type _} {l : List α} {k : Nat} (h : k < l.length) :
    l.take (k + 1) = l.take k ++ [l[k]] := by
  rw [List.take_succ, List.getElem?_eq_getElem h]
  rfl

lemma common_seq_walk_sublist {chains : List (List Char)} {ctx : Context}
    (hst : StructOk chains ctx) (hro : RootOk ctx) (hpi : ParentInv ctx) :
    ∀ (fuel : Nat) (p : Point) (i : Nat), i < chains.length →
      ((∀ ki, p.getD i none = some ki →
        (common_seq_walk ctx fuel p).reverse.Sublist ((chains.getD i []).take (ki + 1)))
      ∧ (common_seq_walk ctx fuel p).reverse.Sublist (chains.getD i [])) := by
  intro fuel
  induction fuel with
  | zero =>
      intro p i hi
      exact ⟨fun ki _ => by simp [common_seq_walk], by simp [common_seq_walk]⟩
  | succ fuel ih =>
      intro p i hi
      cases hpp : ctx.parents p with
      | none =>
          rw [common_seq_walk, hpp]
          exact ⟨fun ki _ => by simp, by simp⟩
      | some pv =>
          cases pv with
          | none =>
              rw [common_seq_walk, hpp]
              exact ⟨fun ki _ => by simp, by simp⟩
          | some par =>
              obtain ⟨hvp, ⟨c, hcoh⟩, hparc⟩ := hpi p par hpp
              rw [hst.1] at hvp hcoh hparc
              have hdpos : 0 < chains.length := hst.2.2.1
              obtain ⟨k0, hk0, hk0lt⟩ := hvp.2 0 hdpos
              obtain ⟨ki, hki, hkilt⟩ := hvp.2 i hi
              have hchar0 : (chains.getD 0 []).getD k0 '?' = c := hcoh 0 hdpos k0 hk0
              have hchari : (chains.getD i [])[ki] = c := by
                rw [← getD_of_lt hkilt]
                exact hcoh i hi ki hki
              have hstep : common_seq_walk ctx (fuel + 1) p
                  = [(chains.getD 0 []).getD k0 '?'] ++ common_seq_walk ctx fuel par := by
                rw [common_seq_walk, hpp, hk0, hst.1]
              have htail : (common_seq_walk ctx fuel par).reverse.Sublist
                  ((chains.getD i []).take ki) := by
                rcases hparc with hroot | hvpar
                · subst hroot
                  have hrw : ctx.parents (rootPt chains.length) = some none := by
                    have := hro.1
                    rw [hst.1] at this
                    exact this
                  cases fuel with
                  | zero => simp [common_seq_walk]
                  | succ fuel2 =>
                      rw [common_seq_walk, hrw]
                      simp
                · obtain ⟨kpi, hkpi, _⟩ := hvpar.1.2 i hi
                  have hklt : kpi < ki := hvpar.2 i hi kpi ki hkpi hki
                  exact ((ih par i hi).1 kpi hkpi).trans
                    (take_sublist_take _ (by omega))
              have hmain : (common_seq_walk ctx (fuel + 1) p).reverse.Sublist
                  ((chains.getD i []).take (ki + 1)) := by
                rw [hstep, List.reverse_append, take_succ_eq hkilt]
                apply List.Sublist.append htail
                have hchars : (chains.getD 0 []).getD k0 '?' = (chains.getD i [])[ki] := by
                  rw [hchar0, hchari]
                rw [List.reverse_singleton, hchars]
              constructor
              · intro ki2 hki2
                have : ki2 = ki := by
                  rw [hki2] at hki
                  simpa using hki
                subst this
                exact hmain
              · exact hmain.trans (List.take_sublist _ _)

lemma common_seq_sublist {chains : List (List Char)} {ctx : Context} {p : Point}
    (hst : StructOk chains ctx) (hro : RootOk ctx) (hpi : ParentInv ctx) :
    ∀ l ∈ chains, (common_seq ctx p).Sublist l := by
  intro l hl
  obtain ⟨i, hi, he⟩ := List.mem_iff_getElem.mp hl
  have hmain := (common_seq_walk_sublist hst hro hpi ((ctx.g p).getD 0 + 1) p i hi).2
  unfold common_seq
  rw [getD_of_lt hi, he] at hmain
  exact hmain

lemma insert_succs_inv {chains : List (List Char)} (p : Point) (hvp : ValidPt chains p) :
    ∀ (succs : List Point) (ctx : Context) (acc : List Point),
      StructOk chains ctx → RootOk ctx → ParentInv ctx →
      (∀ x ∈ acc, ValidPt chains x) →
      (∀ x ∈ succs, ValidPt chains x ∧
        (∃ c, ∀ i, i < chains.length → ∀ kq, x.getD i none = some kq →
          (chains.getD i []).getD kq '?' = c) ∧
        (∀ i, i < chains.length → ∀ kp kq, p.getD i none = some kp →
          x.getD i none = some kq → kp < kq)) →
      StructOk chains (insert_succs ctx p succs acc).1 ∧
        RootOk (insert_succs ctx p succs acc).1 ∧
        ParentInv (insert_succs ctx p succs acc).1 ∧
        (∀ x ∈ (insert_succs ctx p succs acc).2, ValidPt chains x) := by
  intro succs
  induction succs with
  | nil =>
      intro ctx acc h1 h2 h3 h4 _
      exact ⟨h1, h2, h3, h4⟩
  | cons q qs ih =>
      intro ctx acc h1 h2 h3 h4 h5
      obtain ⟨hvq, hcoh, hgt⟩ := h5 q (List.mem_cons_self q qs)
      rw [insert_succs]
      by_cases hq : q ∈ acc
      · rw [if_pos hq]
        exact ih ctx acc h1 h2 h3 h4 (fun x hx => h5 x (List.mem_cons_of_mem _ hx))
      · rw [if_neg hq]
        exact ih (update_suc ctx p q) (acc ++ [q])
          (update_suc_structok _ _ h1) (update_suc_rootok h1 h2 hvq)
          (update_suc_parentinv h1 h3 hvq hcoh (Or.inr ⟨hvp, hgt⟩))
          (fun x hx => by
            rcases List.mem_append.mp hx with hx | hx
            · exact h4 x hx
            · rw [List.mem_singleton.mp hx]; exact hvq)
          (fun x hx => h5 x (List.mem_cons_of_mem _ hx))

lemma expand_round_inv {chains : List (List Char)} :
    ∀ (active : List Point) (ctx : Context) (acc : List Point),
      StructOk chains ctx → RootOk ctx → ParentInv ctx →
      (∀ x ∈ active, ValidPt chains x) →
      (∀ x ∈ acc, ValidPt chains x) →
      (∀ s, expand_round ctx active acc = Sum.inl s →
        ∃ ctx2 p2, StructOk chains ctx2 ∧ RootOk ctx2 ∧ ParentInv ctx2 ∧
          s = common_seq ctx2 p2) ∧
      (∀ st2, expand_round ctx active acc = Sum.inr st2 →
        StructOk chains st2.1 ∧ RootOk st2.1 ∧ ParentInv st2.1 ∧
        ∀ x ∈ st2.2, ValidPt chains x) := by
  intro active
  induction active with
  | nil =>
      intro ctx acc h1 h2 h3 _ h5
      constructor
      · intro s hs
        rw [expand_round] at hs
        exact absurd hs (by simp)
      · intro st2 hst2
        rw [expand_round] at hst2
        have he : (ctx, acc) = st2 := by simpa using hst2
        rw [← he]
        exact ⟨h1, h2, h3, h5⟩
  | cons pp rest ih =>
      intro ctx acc h1 h2 h3 h4 h5
      rw [expand_round]
      by_cases hh : heuristic ctx pp = 0
      · rw [if_pos hh]
        constructor
        · intro s hs
          have he : common_seq ctx pp = s := by simpa using hs
          exact ⟨ctx, pp, h1, h2, h3, he.symm⟩
        · intro st2 hst2
          exact absurd hst2 (by simp)
      · rw [if_neg hh]
        have hins := insert_succs_inv pp (h4 pp (List.mem_cons_self pp rest))
          (get_successors ctx pp) ctx acc h1 h2 h3 h5
          (fun x hx => successor_good h1 (h4 pp (List.mem_cons_self pp rest)) hx)
        exact ih (insert_succs ctx pp (get_successors ctx pp) acc).1
          (insert_succs ctx pp (get_successors ctx pp) acc).2
          hins.1 hins.2.1 hins.2.2.1
          (fun x hx => h4 x (List.mem_cons_of_mem _ hx)) hins.2.2.2

lemma mlcs_step_inv {chains : List (List Char)} {st : Context × List Point}
    (hinv : StInv chains st) :
    (∀ s, mlcs_step st = Sum.inl s →
      s = [] ∨ ∃ ctx2 p2, StructOk chains ctx2 ∧ RootOk ctx2 ∧ ParentInv ctx2 ∧
        s = common_seq ctx2 p2) ∧
    (∀ st2, mlcs_step st = Sum.inr st2 → StInv chains st2) := by
  obtain ⟨h1, h2, h3, h4⟩ := hinv
  unfold mlcs_step
  cases hlast : st.2.getLast? with
  | none =>
      constructor
      · intro s hs
        left
        simpa using hs.symm
      · intro st2 hst2
        exact absurd hst2 (by simp)
  | some lastp =>
      dsimp only
      have hexp := expand_round_inv
        (st.2.filter (fun p => decide
          ((if astar_C < (st.1.f lastp).getD 0
            then (st.1.f lastp).getD 0 - astar_C
            else (st.1.f lastp).getD 0) ≤ (st.1.f p).getD 0)))
        st.1 [] h1 h2 h3
        (fun x hx => h4 x (List.mem_of_mem_filter hx)) (by simp)
      cases hres : expand_round st.1
        (st.2.filter (fun p => decide
          ((if astar_C < (st.1.f lastp).getD 0
            then (st.1.f lastp).getD 0 - astar_C
            else (st.1.f lastp).getD 0) ≤ (st.1.f p).getD 0))) [] with
      | inl s0 =>
          constructor
          · intro s hs
            right
            obtain ⟨ctx2, p2, hc1, hc2, hc3, hc4⟩ := hexp.1 s0 hres
            have he : s0 = s := by simpa using hs
            exact ⟨ctx2, p2, hc1, hc2, hc3, he ▸ hc4⟩
          · intro st2 hst2
            exact absurd hst2 (by simp)
      | inr st3 =>
          constructor
          · intro s hs
            exact absurd hs (by simp)
          · intro st2 hst2
            have he : (st3.1, reorder_queue st3.1 st3.2) = st2 := by simpa using hst2
            obtain ⟨hc1, hc2, hc3, hc4⟩ := hexp.2 st3 hres
            rw [← he]
            refine ⟨hc1, hc2, hc3, ?_⟩
            intro x hx
            apply hc4
            exact ((List.perm_insertionSort _ st3.2).mem_iff).mp hx

lemma new_stinv {chains : List (List Char)} {ctx : Context}
    (h : Context.new chains = some ctx) :
    StructOk chains ctx ∧ RootOk ctx ∧ ParentInv ctx := by
  obtain ⟨hc, hd, hpos, hms, hmt, halph, hf, hg, hpar⟩ := Context.new_spec h
  refine ⟨⟨hc, hd, hpos, hms, hmt, halph⟩, ⟨?_, ?_, ?_⟩, ?_⟩
  · rw [hpar, hc]
    simp
  · rw [hg, hc]
    simp
  · rw [hf, hc]
    simp
  · intro q par hq
    rw [hpar] at hq
    have hq2 : (if q = rootPt chains.length then (some none : Option (Option Point)) else none)
        = some (some par) := hq
    by_cases hqr : q = rootPt chains.length
    · rw [if_pos hqr] at hq2
      exact absurd hq2 (by simp)
    · rw [if_neg hqr] at hq2
      exact absurd hq2 (by simp)

lemma init_fold_inv {chains : List (List Char)} :
    ∀ (qs : List Point) (ctx : Context),
      StructOk chains ctx → RootOk ctx → ParentInv ctx →
      (∀ x ∈ qs, ValidPt chains x ∧ (∃ c, ∀ i, i < chains.length → ∀ kq,
        x.getD i none = some kq → (chains.getD i []).getD kq '?' = c)) →
      StructOk chains (qs.foldl (fun c q => update_suc c (List.replicate c.d none) q) ctx) ∧
        RootOk (qs.foldl (fun c q => update_suc c (List.replicate c.d none) q) ctx) ∧
        ParentInv (qs.foldl (fun c q => update_suc c (List.replicate c.d none) q) ctx) := by
  intro qs
  induction qs with
  | nil => intro ctx h1 h2 h3 _; exact ⟨h1, h2, h3⟩
  | cons q rest ih =>
      intro ctx h1 h2 h3 h4
      obtain ⟨hvq, hcoh⟩ := h4 q (List.mem_cons_self q rest)
      have hroot : (List.replicate ctx.d none : Point) = rootPt chains.length := by
        rw [h1.2.1]
        rfl
      rw [List.foldl_cons]
      have hpres1 := update_suc_structok (List.replicate ctx.d none) q h1
      have hpres2 := update_suc_rootok (p := List.replicate ctx.d none) h1 h2 hvq
      have hpres3 := update_suc_parentinv h1 h3 hvq hcoh (Or.inl hroot)
      exact ih (update_suc ctx (List.replicate ctx.d none) q) hpres1 hpres2 hpres3
        (fun x hx => h4 x (List.mem_cons_of_mem _ hx))

lemma init_queue_inv {chains : List (List Char)} {ctx : Context}
    (h : Context.new chains = some ctx) :
    StInv chains (init_queue ctx) := by
  obtain ⟨hst, hro, hpi⟩ := new_stinv h
  have hstart : ∀ x ∈ get_starting_p ctx, ValidPt chains x ∧
      ∃ c, ∀ i, i < chains.length → ∀ kq, x.getD i none = some kq →
        (chains.getD i []).getD kq '?' = c :=
    fun x hx => get_starting_p_mem_facts hst hx
  have hfold := init_fold_inv (get_starting_p ctx) ctx hst hro hpi hstart
  unfold init_queue
  dsimp only
  refine ⟨hfold.1, hfold.2.1, hfold.2.2, ?_⟩
  intro x hx
  unfold reorder_queue at hx
  have hmem := (List.perm_insertionSort _ (get_starting_p ctx)).mem_iff.mp hx
  exact (hstart x hmem).1

lemma mlcs_loop_sublist {chains : List (List Char)} :
    ∀ (fuel : Nat) (st : Context × List Point) (s : List Char),
      StInv chains st → mlcs_loop fuel st = some s → s ≠ [] →
      ∀ l ∈ chains, s.Sublist l := by
  intro fuel
  induction fuel with
  | zero =>
      intro st s _ h
      exact absurd h (by simp [mlcs_loop])
  | succ fuel ih =>
      intro st s hinv hrun hne
      rw [mlcs_loop] at hrun
      cases hstep : mlcs_step st with
      | inl s0 =>
          rw [hstep] at hrun
          have hs : s0 = s := by simpa using hrun
          subst hs
          rcases (mlcs_step_inv hinv).1 s0 hstep with hnil | ⟨ctx2, p2, hc1, hc2, hc3, hc4⟩
          · exact absurd hnil hne
          · rw [hc4]
            exact fun l hl => common_seq_sublist hc1 hc2 hc3 l hl
      | inr st2 =>
          rw [hstep] at hrun
          exact ih st2 s ((mlcs_step_inv hinv).2 st2 hstep) (by simpa using hrun) hne

/-- Claim C1: for every input collection, when the search returns a non-empty
string, that string is a subsequence (`List.Sublist`) of every input string. -/
theorem claim_C1_subsequence (fuel : Nat) (chains : List (List Char)) (s : List Char)
    (hrun : multiple_longest_common_subsequence fuel chains = some s) (hne : s ≠ []) :
    ∀ l ∈ chains, s.Sublist l := by
  unfold multiple_longest_common_subsequence at hrun
  cases hnew : Context.new chains with
  | none =>
      rw [hnew] at hrun
      exact absurd hrun (by simp)
  | some ctx =>
      rw [hnew] at hrun
      exact mlcs_loop_sublist fuel (init_queue ctx) s (init_queue_inv hnew) hrun hne

/-- Claim C6: for every ordered pair `(i, j)` of input strings, cell `(a, b)`
of the pairwise matrix built by `score_matrix` holds the length of a longest
common subsequence of `suffix(string_i, a+1)` and `suffix(string_j, b+1)`:
such a common subsequence exists, and no common subsequence is longer. -/
theorem claim_C6_score_cell (chains : List (List Char)) (i j a b : Nat)
    (hi : i < chains.length) (hj : j < chains.length) :
    (∃ cs : List Char, cs.Sublist ((chains.getD i []).drop (a + 1)) ∧
        cs.Sublist ((chains.getD j []).drop (b + 1)) ∧
        cs.length = score_cell
          ((matrices_score chains).getD (to_linear_index i j chains.length) []) a b) ∧
    ∀ cs : List Char, cs.Sublist ((chains.getD i []).drop (a + 1)) →
      cs.Sublist ((chains.getD j []).drop (b + 1)) →
      cs.length ≤ score_cell
        ((matrices_score chains).getD (to_linear_index i j chains.length) []) a b := by
  rw [matrices_score_getD chains i j hi hj, score_matrix_cell]
  exact ⟨lcs_exists _ _, fun cs hc1 hc2 => lcs_le hc1 hc2⟩

/-- Witness for C6 at a concrete input. -/
theorem claim_C6_score_cell_witness :
    ((0 : Nat) < 2 ∧ (1 : Nat) < 2) ∧
      ((∃ cs : List Char, cs.Sublist (([['A','B'],['B','A']].getD 0 []).drop 1) ∧
          cs.Sublist (([['A','B'],['B','A']].getD 1 []).drop 1) ∧
          cs.length = score_cell
            ((matrices_score [['A','B'],['B','A']]).getD (to_linear_index 0 1 2) []) 0 0) ∧
      ∀ cs : List Char, cs.Sublist (([['A','B'],['B','A']].getD 0 []).drop 1) →
        cs.Sublist (([['A','B'],['B','A']].getD 1 []).drop 1) →
        cs.length ≤ score_cell
          ((matrices_score [['A','B'],['B','A']]).getD (to_linear_index 0 1 2) []) 0 0) :=
  ⟨⟨by decide, by decide⟩,
    claim_C6_score_cell [['A','B'],['B','A']] 0 1 0 0 (by decide) (by decide)⟩

/-- Claim C9: on the concrete input `["ABC", "AC", "BAC"]` the search returns
exactly `"AC"` (fuel 5 is enough for this run). -/
theorem claim_C9_simple_case :
    multiple_longest_common_subsequence 5 [['A','B','C'],['A','C'],['B','A','C']]
      = some ['A','C'] := by decide

set_option maxRecDepth 10000 in
/-- Claim C3 (code bug): on two copies of the 21-character string
`"aaaaaaaaaaaaaaaaaaaaz"`, the search returns `"z"` instead of the string
itself: in the first round `y = f(max) = 21 > C = 20`, so the relaxation
window keeps the one-step match at the last position (`f = 1 ≥ y - C = 1`),
which is expanded first (lowest `f`) and has heuristic `0`.  This violates
the spec's property `mlcs([s, …, s]) = s` for every `n ≥ 1`. -/
theorem claim_C3_code_bug :
    multiple_longest_common_subsequence 5
      [List.replicate 20 'a' ++ ['z'], List.replicate 20 'a' ++ ['z']] = some ['z'] := by
  decide

lemma alphabet_nil_of_no_common {chains : List (List Char)} {ctx : Context}
    (hnew : Context.new chains = some ctx)
    (hcond : (∃ l ∈ chains, l = []) ∨ ∀ c : Char, ∃ l ∈ chains, c ∉ l) :
    ctx.alphabet = [] := by
  obtain ⟨_, _, _, _, _, halph, _, _, _⟩ := Context.new_spec hnew
  cases halc : ctx.alphabet with
  | nil => rfl
  | cons c rest =>
      have hc : ∀ s ∈ chains, c ∈ s := halph c (by rw [halc]; exact List.mem_cons_self c rest)
      rcases hcond with ⟨l, hl, hle⟩ | hall
      · have := hc l hl
        rw [hle] at this
        exact absurd this (List.not_mem_nil c)
      · obtain ⟨l, hl, hnotin⟩ := hall c
        exact absurd (hc l hl) hnotin

/-- Claim C2 counterexample: with the single input string `"A"` (fewer than
two strings), the function returns `"A"`, not the empty string, refuting the
"fewer than 2 strings" part of the claim.  (With zero strings it panics.) -/
theorem claim_C2_counterexample :
    multiple_longest_common_subsequence 5 [['A']] = some ['A'] ∧
      ¬ multiple_longest_common_subsequence 5 [['A']] = some [] := by decide

/-- Claim C2 (amended): when at least one input string is given, the function
returns the empty string whenever some input string is empty, and whenever no
symbol occurs in all of the inputs (either condition empties the filtered
alphabet, so the frontier starts empty and the loop exits at once). -/
theorem claim_C2_amended (chains : List (List Char)) (fuel : Nat)
    (hne : chains ≠ [])
    (hcond : (∃ l ∈ chains, l = []) ∨ ∀ c : Char, ∃ l ∈ chains, c ∉ l)
    (hfuel : 1 ≤ fuel) :
    multiple_longest_common_subsequence fuel chains = some [] := by
  have hex : ∃ ctx, Context.new chains = some ctx := by
    unfold Context.new get_alphabet
    cases chains with
    | nil => exact absurd rfl hne
    | cons c0 cr => exact ⟨_, rfl⟩
  obtain ⟨ctx, hnew⟩ := hex
  have halc := alphabet_nil_of_no_common hnew hcond
  have hstart : get_starting_p ctx = [] := by
    unfold get_starting_p
    rw [halc]
    rfl
  have hinit : init_queue ctx = (ctx, []) := by
    unfold init_queue
    rw [hstart]
    rfl
  unfold multiple_longest_common_subsequence
  rw [hnew]
  show mlcs_loop fuel (init_queue ctx) = some []
  rw [hinit]
  cases fuel with
  | zero => omega
  | succ f => rfl

/-- Witness for the amended C2 at a concrete input with an empty string. -/
theorem claim_C2_amended_witness :
    (([([] : List Char), ['A']] : List (List Char)) ≠ [] ∧
      ∃ l ∈ ([([] : List Char), ['A']] : List (List Char)), l = []) ∧
      multiple_longest_common_subsequence 1 [([] : List Char), ['A']] = some [] :=
  ⟨⟨by decide, by decide⟩,
    claim_C2_amended [[], ['A']] 1 (by decide) (Or.inl ⟨[], by decide, rfl⟩) (by decide)⟩

lemma succ_go_px_eq (mtc : List (List (Option Nat))) :
    ∀ (l : List (Option Nat)) (i : Nat) (acc : List (Option Nat)),
      (∀ j idx, l.getD j none = some idx → i + j < mtc.length ∧
          idx + 1 < (mtc.getD (i + j) []).length) →
      succ_go_px mtc l i acc = some (succ_go mtc l i acc) := by
  intro l
  induction l with
  | nil => intro i acc h; rfl
  | cons po rest ih =>
      intro i acc h
      have hshift : ∀ i' acc', i' = i + 1 →
          (∀ j idx, rest.getD j none = some idx → i' + j < mtc.length ∧
            idx + 1 < (mtc.getD (i' + j) []).length) →
          succ_go_px mtc rest i' acc' = some (succ_go mtc rest i' acc') :=
        fun i' acc' _ h' => ih i' acc' h'
      cases po with
      | none =>
          show succ_go_px mtc rest (i + 1) acc = some (succ_go mtc rest (i + 1) acc)
          apply hshift _ _ rfl
          intro j idx hj
          have hji := h (j + 1) idx (by simpa using hj)
          have harr : i + (j + 1) = (i + 1) + j := by omega
          rw [harr] at hji
          exact hji
      | some idx =>
          have hb := h 0 idx (by simp)
          have hi : i < mtc.length := by
            have := hb.1
            omega
          have hidx : idx + 1 < (mtc.getD i []).length := by
            have := hb.2
            simpa using this
          have hcol : mtc[i]? = some (mtc.getD i []) := by
            rw [List.getElem?_eq_getElem hi, getD_of_lt hi]
          have hel : (mtc.getD i [])[idx + 1]?
              = some ((mtc.getD i []).getD (idx + 1) none) := by
            rw [List.getElem?_eq_getElem hidx, getD_of_lt hidx]
          rw [succ_go_px, succ_go, hcol]
          simp only []
          rw [hel]
          simp only []
          cases hval : (mtc.getD i []).getD (idx + 1) none with
          | none => rfl
          | some nxt =>
              apply hshift _ _ rfl
              intro j idx' hj
              have hji := h (j + 1) idx' (by simpa using hj)
              have harr : i + (j + 1) = (i + 1) + j := by omega
              rw [harr] at hji
              exact hji

lemma mapM_congr_some {α β : Type _} (f : α → Option β) (g : α → β) :
    ∀ l : List α, (∀ a ∈ l, f a = some (g a)) → l.mapM f = some (l.map g) := by
  intro l
  induction l with
  | nil => intro h; rfl
  | cons x xs ih =>
      intro h
      rw [List.mapM_cons, h x (List.mem_cons_self x xs),
        ih (fun a ha => h a (List.mem_cons_of_mem x ha))]
      rfl

lemma get_successors_px_eq {chains : List (List Char)} {ctx : Context} {p : Point}
    (hst : StructOk chains ctx) (hv : ValidPt chains p)
    (hub : ∀ i < chains.length, ∀ k, p.getD i none = some k →
      k + 2 ≤ (chains.getD i []).length) :
    get_successors_px ctx p = some (get_successors ctx p) := by
  obtain ⟨hc, hd, hpos, hms, hmt, halph⟩ := hst
  have hst' : StructOk chains ctx := ⟨hc, hd, hpos, hms, hmt, halph⟩
  have hmtlen : ctx.mt.length = ctx.alphabet.length := by
    rw [hmt, List.length_map]
  unfold get_successors_px get_successors
  have hmap := mapM_congr_some
    (fun ch_idx =>
      match ctx.mt[ch_idx]? with
      | none => (none : Option (Option Point))
      | some mtc =>
          match succ_go_px mtc (p.take ctx.chains.length) 0 [] with
          | none => none
          | some succ =>
              some (if succ.length = ctx.chains.length then some succ else none))
    (fun ch_idx =>
      let succ := succ_go (ctx.mt.getD ch_idx []) (p.take ctx.chains.length) 0 []
      if succ.length = ctx.chains.length then some succ else none)
    (List.range ctx.alphabet.length) ?_
  · rw [hmap]
    show some ((List.map _ (List.range ctx.alphabet.length)).filterMap id) = _
    rw [List.filterMap_map]
    rfl
  · intro ch_idx hch
    simp only []
    have hci : ch_idx < ctx.alphabet.length := List.mem_range.mp hch
    have hcimt : ch_idx < ctx.mt.length := by omega
    have hcol : ctx.mt[ch_idx]? = some (ctx.mt.getD ch_idx []) := by
      rw [List.getElem?_eq_getElem hcimt, getD_of_lt hcimt]
    have hpx : succ_go_px (ctx.mt.getD ch_idx []) (p.take ctx.chains.length) 0 []
        = some (succ_go (ctx.mt.getD ch_idx []) (p.take ctx.chains.length) 0 []) := by
      apply succ_go_px_eq
      intro j idx hj
      have htake : p.take ctx.chains.length = p := by
        rw [hc]
        exact take_eq_self_of_valid hv
      rw [htake] at hj
      have hpl : p.length = chains.length := hv.1
      have hjlt : j < chains.length := by
        by_contra hge
        push_neg at hge
        have : p.getD j none = none := List.getD_eq_default _ _ (by omega)
        rw [this] at hj
        exact absurd hj (by simp)
      have hjub := hub j hjlt idx hj
      have hcols : ctx.mt.getD ch_idx [] = chains.map (fun s => (mt_col s
          (ctx.alphabet[ch_idx])).1) := mt_getD_eq hst' hci
      constructor
      · rw [hcols, List.length_map]
        omega
      · rw [hcols, Nat.zero_add,
          getD_of_lt (a := j) (by rw [List.length_map]; exact hjlt),
          List.getElem_map, mt_col_length]
        have hgd : chains.getD j ([] : List Char) = chains[j] := getD_of_lt hjlt
        rw [hgd] at hjub
        omega
    rw [hcol]
    show (match succ_go_px (ctx.mt.getD ch_idx []) (p.take ctx.chains.length) 0 [] with
        | none => (none : Option (Option Point))
        | some succ =>
            some (if succ.length = ctx.chains.length then some succ else none)) = _
    rw [hpx]

/-- Claim C4 counterexample: at the fully valid boundary point `[1,1]` on two
copies of `"AB"` (each component the last index of its string), the spec's
described successor set is empty, but the Rust function does not return it:
the read `mt[ch][i][p_i + 1]` indexes past the end of a length-2 column and
panics (the fallible model returns `none`). -/
theorem claim_C4_counterexample :
    (([some 1, some 1] : Point).length
        = ([['A','B'],['A','B']] : List (List Char)).length ∧
      ([some 1, some 1] : Point).getD 0 none = some 1 ∧
      ([some 1, some 1] : Point).getD 1 none = some 1 ∧
      (1 : Nat) < (([['A','B'],['A','B']] : List (List Char)).getD 0 []).length ∧
      (1 : Nat) < (([['A','B'],['A','B']] : List (List Char)).getD 1 []).length) ∧
      get_successors_px ((Context.new [['A','B'],['A','B']]).getD emptyContext)
        [some 1, some 1] = none ∧
      get_successors_spec ((Context.new [['A','B'],['A','B']]).getD emptyContext)
        [some 1, some 1] = [] := by decide

/-- Claim C4 (amended: the point must also leave room for the lookup,
`p_i + 2 ≤ len_i` for every component, the condition the driver guarantees
via a nonzero heuristic): over a context built by `Context.new`,
`get_successors` returns (without panicking) exactly the candidates described
in the spec: for each character of the filtered alphabet, advance every
coordinate of `p` to the first strictly later occurrence of that character in
its string (`next_strictly_after`), keeping the candidate only when every
string has such an occurrence, one candidate per character in alphabet
order.  At a boundary valid point (some `p_i = len_i - 1`) the function
instead panics, see the counterexample. -/
theorem claim_C4_successors (chains : List (List Char)) (ctx : Context) (p : Point)
    (hnew : Context.new chains = some ctx) (hv : ValidPt chains p)
    (hub : ∀ i < chains.length, ∀ k, p.getD i none = some k →
      k + 2 ≤ (chains.getD i []).length) :
    get_successors_px ctx p = some (get_successors_spec ctx p) := by
  rw [get_successors_px_eq (new_stinv hnew).1 hv hub,
    get_successors_eq_spec (new_stinv hnew).1 hv]

/-- Witness for the amended C4 at a concrete context and interior point. -/
theorem claim_C4_successors_witness :
    ValidPt [['A','B','C'],['B','A','C']] [some 0, some 1] ∧
      get_successors_px ((Context.new [['A','B','C'],['B','A','C']]).getD emptyContext)
          [some 0, some 1]
        = some (get_successors_spec ((Context.new [['A','B','C'],['B','A','C']]).getD
            emptyContext) [some 0, some 1]) := by
  have hv : ValidPt [['A','B','C'],['B','A','C']] [some 0, some 1] := by
    refine ⟨rfl, ?_⟩
    intro i hi
    have hi2 : i < 2 := by simpa using hi
    interval_cases i
    · exact ⟨0, rfl, by decide⟩
    · exact ⟨1, rfl, by decide⟩
  refine ⟨hv, ?_⟩
  apply claim_C4_successors [['A','B','C'],['B','A','C']] _ _ rfl hv
  intro i hi k hk
  have hi2 : i < 2 := by simpa using hi
  interval_cases i
  · have h0 : (0 : Nat) = k := Option.some.inj hk
    subst h0
    decide
  · have h1 : (1 : Nat) = k := Option.some.inj hk
    subst h1
    decide

/-- Claim C5 counterexample: with the single input string `"AB"` (so only one
string, no ordered pair of distinct strings) the pair-minimum heuristic at the
valid point `[0]` is `0`, yet `"B"` is a common subsequence of the suffixes
after the pointed positions and has length `1 > 0`. -/
theorem claim_C5_counterexample :
    ([some 0] : Point).length = ([['A','B']] : List (List Char)).length ∧
      ([some 0] : Point).getD 0 none = some 0 ∧
      (0 : Nat) < (([['A','B']] : List (List Char)).getD 0 []).length ∧
      (['B'] : List Char).Sublist ((([['A','B']] : List (List Char)).getD 0 []).drop (0 + 1)) ∧
      heuristic ((Context.new [['A','B']]).getD emptyContext) [some 0]
        < (['B'] : List Char).length := by decide

/-- Claim C5 (amended: requires at least two input strings): for a context
built by `Context.new` on at least two strings, and any point whose
components are all real indices, the heuristic is at least the length of
every common subsequence of the suffixes beginning just after each pointed
position, i.e. it never underestimates the remaining extension. -/
theorem claim_C5_amended (chains : List (List Char)) (ctx : Context) (p : Point)
    (cs : List Char)
    (hnew : Context.new chains = some ctx)
    (hd2 : 2 ≤ chains.length)
    (hsome : ∀ i < chains.length, ∃ k, p.getD i none = some k)
    (hcs : ∀ i < chains.length, ∀ k, p.getD i none = some k →
      cs.Sublist ((chains.getD i []).drop (k + 1))) :
    cs.length ≤ heuristic ctx p := by
  obtain ⟨hc, hd, hpos, hms, hmt, halph, hf, hg, hpar⟩ := Context.new_spec hnew
  obtain ⟨a0, ha0⟩ := hsome 0 (by omega)
  obtain ⟨a1, ha1⟩ := hsome 1 (by omega)
  have hmem := @sim_list_mem ctx p 0 1 a0 a1
    (by rw [hd]; omega) (by rw [hd]; omega) (by omega) ha0 ha1
  have hne : sim_list ctx p ≠ [] := by
    intro hnil
    rw [hnil] at hmem
    exact absurd hmem (List.not_mem_nil _)
  apply le_heuristic_of_all hne
  intro x hx
  obtain ⟨i, j, a, b, hi, hj, hij, hpa, hpb, hxe⟩ := sim_list_mem_inv hx
  rw [hd] at hi hj
  rw [hxe, hms, hd, matrices_score_getD chains i j hi hj, score_matrix_cell]
  exact lcs_le (hcs i hi a hpa) (hcs j hj b hpb)

/-- Witness for the amended C5 at two copies of `"AB"` and the point `[0,0]`. -/
theorem claim_C5_amended_witness :
    (2 ≤ ([['A','B'],['A','B']] : List (List Char)).length) ∧
      (['B'] : List Char).length
        ≤ heuristic ((Context.new [['A','B'],['A','B']]).getD emptyContext)
            [some 0, some 0] := by
  refine ⟨by decide, ?_⟩
  apply claim_C5_amended [['A','B'],['A','B']] _ [some 0, some 0] ['B'] rfl (by decide)
  · intro i hi
    have hi2 : i < 2 := by simpa using hi
    interval_cases i <;> exact ⟨0, rfl⟩
  · intro i hi k hk
    have hi2 : i < 2 := by simpa using hi
    interval_cases i <;>
      · have hk0 : (0 : Nat) = k := Option.some.inj hk
        subst hk0
        decide

/-- Witness for C1: on `["AB", "AC"]` the search returns `"A"`, which is a
subsequence of both inputs. -/
theorem claim_C1_subsequence_witness :
    multiple_longest_common_subsequence 3 [['A','B'],['A','C']] = some ['A'] ∧
      ∀ l ∈ ([['A','B'],['A','C']] : List (List Char)), (['A'] : List Char).Sublist l :=
  ⟨by decide,
    claim_C1_subsequence 3 [['A','B'],['A','C']] ['A'] (by decide) (by decide)⟩

lemma opt_gt_iff (x y : Option Nat) : opt_gt x y = true ↔ optRank y < optRank x := by
  cases x <;> cases y <;> simp [opt_gt, optRank]

lemma opt_eq_iff_rank (x y : Option Nat) : x = y ↔ optRank x = optRank y := by
  cases x <;> cases y <;> simp [optRank]

lemma point_gt_false_iff (ctx : Context) (p q : Point) :
    point_gt ctx p q = false ↔
      (optRank (ctx.f p) < optRank (ctx.f q) ∨
        (optRank (ctx.f p) = optRank (ctx.f q) ∧ heuristic ctx p ≤ heuristic ctx q)) := by
  unfold point_gt
  rw [Bool.or_eq_false_iff, Bool.and_eq_false_iff]
  rw [Bool.eq_false_iff, Ne, opt_gt_iff]
  rw [Bool.eq_false_iff, Ne, decide_eq_true_iff]
  rw [Bool.eq_false_iff, Ne, decide_eq_true_iff]
  rw [opt_eq_iff_rank]
  omega

lemma point_gt_false_total (ctx : Context) (p q : Point) :
    point_gt ctx p q = false ∨ point_gt ctx q p = false := by
  rw [point_gt_false_iff, point_gt_false_iff]
  omega

lemma point_gt_false_trans (ctx : Context) (p q r : Point)
    (h1 : point_gt ctx p q = false) (h2 : point_gt ctx q r = false) :
    point_gt ctx p r = false := by
  rw [point_gt_false_iff] at h1 h2 ⊢
  omega

lemma rel_getLast_of_pairwise {α : Type _} {R : α → α → Prop} :
    ∀ {l : List α} {p lst : α}, l.Pairwise R → p ∈ l → l.getLast? = some lst →
      p = lst ∨ R p lst := by
  intro l
  induction l with
  | nil => intro p lst _ hp _; exact absurd hp (List.not_mem_nil p)
  | cons x rest ih =>
      intro p lst hpw hp hlast
      cases rest with
      | nil =>
          have hx : x = lst := by simpa using hlast
          have hpx : p = x := by simpa using hp
          left
          rw [hpx, hx]
      | cons y ys =>
          have hlast' : (y :: ys).getLast? = some lst := by
            rw [List.getLast?_cons_cons] at hlast
            exact hlast
          rcases List.mem_cons.mp hp with hpx | hpr
          · have hlstmem : lst ∈ y :: ys := List.mem_of_mem_getLast? hlast'
            right
            rw [hpx]
            exact (List.pairwise_cons.mp hpw).1 lst hlstmem
          · exact ih (List.pairwise_cons.mp hpw).2 hpr hlast'

/-- Claim C8: `reorder_queue` returns the frontier sorted by f ascending
(`None` below any value, as the code compares `Option`s), ties broken by
heuristic ascending; consequently every member's f-rank is at most that of
the last element, which is the one read as `y` each round. -/
theorem claim_C8_reorder_sorted (ctx : Context) (queue : List Point) :
    (reorder_queue ctx queue).Pairwise
      (fun p q => optRank (ctx.f p) < optRank (ctx.f q) ∨
        (optRank (ctx.f p) = optRank (ctx.f q) ∧ heuristic ctx p ≤ heuristic ctx q)) ∧
      ∀ l, (reorder_queue ctx queue).getLast? = some l →
        ∀ p ∈ reorder_queue ctx queue, optRank (ctx.f p) ≤ optRank (ctx.f l) := by
  haveI htot : IsTotal Point (fun p q => point_gt ctx p q = false) :=
    ⟨point_gt_false_total ctx⟩
  haveI htra : IsTrans Point (fun p q => point_gt ctx p q = false) :=
    ⟨point_gt_false_trans ctx⟩
  have hs : (reorder_queue ctx queue).Pairwise (fun p q => point_gt ctx p q = false) :=
    List.sorted_insertionSort (fun p q => point_gt ctx p q = false) queue
  constructor
  · exact hs.imp (fun h => (point_gt_false_iff ctx _ _).mp h)
  · intro l hlast p hp
    rcases rel_getLast_of_pairwise hs hp hlast with he | hrel
    · rw [he]
    · have := (point_gt_false_iff ctx p l).mp hrel
      omega

/-- Witness for C8 on a concrete two-point frontier. -/
theorem claim_C8_reorder_sorted_witness :
    optRank (((Context.new [['A','B'],['A','B']]).getD emptyContext).f [some 1, some 1])
      ≤ optRank (((Context.new [['A','B'],['A','B']]).getD emptyContext).f
          [some 0, some 0]) :=
  (claim_C8_reorder_sorted ((Context.new [['A','B'],['A','B']]).getD emptyContext)
      [[some 0, some 0], [some 1, some 1]]).2
    [some 0, some 0] (by decide) [some 1, some 1] (by decide)

lemma reach_stinv {chains : List (List Char)} {st : Context × List Point}
    (h : ReachState chains st) : StInv chains st := by
  induction h with
  | init ctx hnew => exact init_queue_inv hnew
  | step st st' _ hstep ih => exact (mlcs_step_inv ih).2 st' hstep

/-- Claim C7 counterexample: on two copies of `"ab"`, the point `[1,1]` is
first recorded with the root `[None,None]` as parent during `init_queue`, but
after one driver round its parent has been reassigned to `[0,0]`, refuting
"never reassigned afterwards". -/
theorem claim_C7_counterexample :
    (init_queue ((Context.new [['a','b'],['a','b']]).getD emptyContext)).1.parents
        [some 1, some 1] = some (some [none, none]) ∧
      step_parents (init_queue ((Context.new [['a','b'],['a','b']]).getD emptyContext))
        [some 1, some 1] = some (some [some 0, some 0]) ∧
      (some ([none, none] : Point) : Option Point) ≠ some [some 0, some 0] := by decide

/-- Claim C7 (amended: parents can be reassigned when a point is reached
again, see the counterexample): at every reachable search state the root
point has recorded parent `None`, `g = 0` and `f = 0`; and whenever
`update_suc` records a successor `q` of `p`, it sets `parent(q) = p` and
`g(q) = g(p) + 1` at that moment of assignment. -/
theorem claim_C7_amended (chains : List (List Char)) (st : Context × List Point)
    (hreach : ReachState chains st) :
    (st.1.parents (rootPt st.1.chains.length) = some none ∧
      st.1.g (rootPt st.1.chains.length) = some 0 ∧
      st.1.f (rootPt st.1.chains.length) = some 0) ∧
    ∀ p q : Point, (update_suc st.1 p q).parents q = some (some p) ∧
      (update_suc st.1 p q).g q = some ((st.1.g p).getD 0 + 1) := by
  have hinv := reach_stinv hreach
  obtain ⟨hstk, hro, _, _⟩ := hinv
  refine ⟨hro, ?_⟩
  intro p q
  constructor
  · rw [update_suc_parents_apply, if_pos rfl]
  · rw [update_suc_g_apply, if_pos rfl]

/-- Witness for the amended C7 at the state right after `init_queue` on two
copies of `"ab"`. -/
theorem claim_C7_amended_witness :
    ((init_queue ((Context.new [['a','b'],['a','b']]).getD emptyContext)).1.parents
        (rootPt (init_queue ((Context.new [['a','b'],['a','b']]).getD
          emptyContext)).1.chains.length) = some none ∧
      (init_queue ((Context.new [['a','b'],['a','b']]).getD emptyContext)).1.g
        (rootPt (init_queue ((Context.new [['a','b'],['a','b']]).getD
          emptyContext)).1.chains.length) = some 0 ∧
      (init_queue ((Context.new [['a','b'],['a','b']]).getD emptyContext)).1.f
        (rootPt (init_queue ((Context.new [['a','b'],['a','b']]).getD
          emptyContext)).1.chains.length) = some 0) ∧
      ((update_suc (init_queue ((Context.new [['a','b'],['a','b']]).getD
            emptyContext)).1 [some 0, some 0] [some 1, some 1]).parents
          [some 1, some 1] = some (some [some 0, some 0]) ∧
        (update_suc (init_queue ((Context.new [['a','b'],['a','b']]).getD
            emptyContext)).1 [some 0, some 0] [some 1, some 1]).g [some 1, some 1]
          = some (((init_queue ((Context.new [['a','b'],['a','b']]).getD
              emptyContext)).1.g [some 0, some 0]).getD 0 + 1)) :=
  ⟨(claim_C7_amended [['a','b'],['a','b']] _ (ReachState.init _ rfl)).1,
    (claim_C7_amended [['a','b'],['a','b']] _ (ReachState.init _ rfl)).2
      [some 0, some 0] [some 1, some 1]⟩

/-- Claim C10: at any reachable search state, a frontier point with nonzero
heuristic (the only kind the driver passes to `get_successors`; a zero
heuristic returns at once) has every pointed position satisfying
`p_i + 2 ≤ len_i`, so the `mt` lookup index `p_i + 1` is strictly within
every next-occurrence column for string `i`: the table reads of
`get_successors` are in bounds. -/
theorem claim_C10_heuristic_bounds (chains : List (List Char))
    (st : Context × List Point) (p : Point)
    (hreach : ReachState chains st) (hp : p ∈ st.2)
    (hh : heuristic st.1 p ≠ 0) :
    2 ≤ chains.length ∧
      ∀ i < chains.length, ∀ k, p.getD i none = some k →
        k + 2 ≤ (chains.getD i []).length ∧
        ∀ ci < st.1.mt.length, k + 1 < ((st.1.mt.getD ci []).getD i []).length := by
  obtain ⟨hst, _, _, hqv⟩ := reach_stinv hreach
  have hv : ValidPt chains p := hqv p hp
  obtain ⟨hc, hd, hpos, hms, hmt, halph⟩ := hst
  have hst' : StructOk chains st.1 := ⟨hc, hd, hpos, hms, hmt, halph⟩
  have hd2 : 2 ≤ chains.length := by
    by_contra hlt
    push_neg at hlt
    have hdle : st.1.d ≤ 1 := by omega
    rw [heuristic_eq_sim, sim_list_nil_of_d_le_one hdle] at hh
    exact hh rfl
  refine ⟨hd2, ?_⟩
  intro i hi k hk
  have hjex : ∃ j, j < chains.length ∧ j ≠ i := by
    by_cases h0 : i = 0
    · exact ⟨1, by omega, by omega⟩
    · exact ⟨0, by omega, fun he => h0 he.symm⟩
  obtain ⟨j, hjlt, hji⟩ := hjex
  obtain ⟨b, hb, hblt⟩ := hv.2 j hjlt
  have hmem := @sim_list_mem st.1 p i j k b
    (by rw [hd]; exact hi) (by rw [hd]; exact hjlt) (Ne.symm hji) hk hb
  have hle := heuristic_le_of_mem hmem
  have hval : score_cell (st.1.ms.getD (to_linear_index i j st.1.d) []) k b
      = lcsLength ((chains.getD i []).drop (k + 1)) ((chains.getD j []).drop (b + 1)) := by
    rw [hms, hd, matrices_score_getD chains i j hi hjlt, score_matrix_cell]
  have hlen : k + 2 ≤ (chains.getD i []).length := by
    by_contra hshort
    push_neg at hshort
    have hdrop : (chains.getD i []).drop (k + 1) = [] := List.drop_eq_nil_of_le (by omega)
    rw [hval, hdrop, lcsLength_nil_left] at hle
    omega
  refine ⟨hlen, ?_⟩
  intro ci hci
  have hcia : ci < st.1.alphabet.length := by
    rw [hmt, List.length_map] at hci
    exact hci
  rw [mt_getD_eq hst' hcia,
    getD_of_lt (a := i) (by rw [List.length_map]; exact hi), List.getElem_map,
    mt_col_length]
  have hgd : chains.getD i [] = chains[i] := getD_of_lt hi
  rw [hgd] at hlen
  omega

/-- Witness for C10 at the initial frontier of two copies of `"AB"` and the
frontier point `[0,0]`, with the inner quantifiers instantiated at string 0
and alphabet column 0. -/
theorem claim_C10_heuristic_bounds_witness :
    [some 0, some 0] ∈ (init_queue ((Context.new [['A','B'],['A','B']]).getD
        emptyContext)).2 ∧
      heuristic (init_queue ((Context.new [['A','B'],['A','B']]).getD
        emptyContext)).1 [some 0, some 0] ≠ 0 ∧
      0 + 2 ≤ (([['A','B'],['A','B']] : List (List Char)).getD 0 []).length ∧
      0 + 1 < (((init_queue ((Context.new [['A','B'],['A','B']]).getD
        emptyContext)).1.mt.getD 0 []).getD 0 []).length := by
  have hmain := claim_C10_heuristic_bounds [['A','B'],['A','B']] _ [some 0, some 0]
    (ReachState.init _ rfl) (by decide) (by decide)
  exact ⟨by decide, by decide, (hmain.2 0 (by decide) 0 rfl).1,
    (hmain.2 0 (by decide) 0 rfl).2 0 (by decide)⟩
